import Mathlib

/-!
Verification of the tokenizer in `src/LaTexTokenizer.py`.

The scanner is driven by `LATEX_PATTERN`, a `re.VERBOSE` regular expression.
Under `re.VERBOSE`, whitespace and `#`-comments are ignored *except inside a
character class*.  On source line 16 the alternative written `\\[` consists of
an escaped backslash followed by an unescaped `[`, which therefore *opens a
character class*.  That class runs until the first unescaped `]`, which occurs
inside the alternative `%[^\n]*` on line 18 (the `]` after `[^\n`).  The class
hence contains, literally, every character appearing between those points:
the space, `#`, newline, `|`, `$` (from the escaped `\$\$?`), `?`, `(`, `)`,
`%`, `[`, `^`, and the letters of the comments
"Start of a math block" and "Math mode (inline or display)", i.e.
S t a r o f m h b l c k M d e i n s p y.  The `*` that follows the closing `]`
on line 18 quantifies the class.  Consequently the compiled alternatives are:

  A1  \\(begin|end)\{[^}]+\}
  A2  \\([a-zA-Z]+)(\*)?(\[[^\]]*\])?(\{(?:[^{}]|\{[^{}]*\})*\})?
  A3  \{        A4  \}        A5  \[        A6  \]
  A7  \\[CLASS]*          (CLASS as described above)
  A8  \\.                 (dead: A7 already matches any backslash)
  A9  &
  A10 \\\\                (dead for the same reason)
  A11 [ \t]+
  A12 \n+
  A13 [^\\{}\[\]$%&\s]+

In particular there is *no* alternative matching a lone `$` or `%` (or a
whitespace character other than space/tab/newline), so `re.finditer` silently
skips such characters.

The embedding below works on `List Char`.  Python's `\s`/`str.isspace` are
modelled by their ASCII fragment (all inputs appearing in the theorems are
ASCII).  Python dict tokens become the structure `Tok`; the dict keys
`type/value/line/position[0]/position[1]/multiline/block` map to the fields
`ty/value/line/posStart/posEnd/multiline/block`.
-/

namespace LaTexTokenizer

/-- ASCII fragment of Python's whitespace (`str.isspace`, regex `\s`). -/
def pyIsSpace (c : Char) : Bool :=
  c = ' ' ∨ c = '\t' ∨ c = '\n' ∨ c = '\r' ∨ c = '\x0b' ∨ c = '\x0c'

def isAsciiLetter (c : Char) : Bool :=
  ('a' ≤ c ∧ c ≤ 'z') ∨ ('A' ≤ c ∧ c ≤ 'Z')

def isAsciiDigit (c : Char) : Bool := '0' ≤ c ∧ c ≤ '9'

/-- Length of the longest prefix of the list all of whose characters satisfy `p`
(the greedy semantics of `X*` for a character class `X`). -/
def countWhile (p : Char → Bool) : List Char → Nat
  | [] => 0
  | c :: cs => if p c then countWhile p cs + 1 else 0

/-- Alternative A1, `\\(begin|end)\{[^}]+\}`: length of the match at the head
of the input, if any. -/
def beginEndLen (cs : List Char) : Option Nat :=
  if cs.head? = some '\\' then
    let rest := cs.tail
    let k := if rest.take 5 = ("begin").toList then 5
             else if rest.take 3 = ("end").toList then 3 else 0
    if k = 0 then none
    else if (rest.drop k).head? = some '\x7b' then
      let body := (rest.drop k).tail
      let j := countWhile (fun c => c ≠ '\x7d') body
      if 1 ≤ j ∧ (body.drop j).head? = some '\x7d' then some (k + j + 3) else none
    else none
  else none

/-- The regex `(?:[^{}]|\{[^{}]*\})*\}` applied after an opening `{`:
number of characters consumed including the closing `}`, or `none` if the
group cannot match (the greedy scan is deterministic here, because every
failed continuation point faces a character that is not `}`). -/
def braceBodyLenF : Nat → List Char → Option Nat
  | 0, _ => none
  | fuel + 1, cs =>
    if cs.head? = some '\x7d' then some 1
    else if cs.head? = some '\x7b' then
      let rest := cs.tail
      let j := countWhile (fun d => d ≠ '\x7b' ∧ d ≠ '\x7d') rest
      if (rest.drop j).head? = some '\x7d' then
        (braceBodyLenF fuel (rest.drop (j + 1))).map (fun g => g + j + 2)
      else none
    else if cs.head? = none then none
    else (braceBodyLenF fuel cs.tail).map (fun g => g + 1)

def braceBodyLen (cs : List Char) : Option Nat := braceBodyLenF cs.length cs

/-- Length of the `[a-zA-Z]+` command-name part of A2 (`rest` starts right
after the backslash). -/
def cmdLetters (rest : List Char) : Nat := countWhile isAsciiLetter rest

/-- Characters consumed by A2's optional `(\*)?`. -/
def cmdStar (rest : List Char) : Nat :=
  if (rest.drop (cmdLetters rest)).head? = some '*' then 1 else 0

/-- Length of the `[^\]]*` interior of A2's optional `[...]` parameter. -/
def cmdParJ (rest : List Char) : Nat :=
  countWhile (fun c => c ≠ ']') (rest.drop (cmdLetters rest + cmdStar rest)).tail

/-- Characters consumed by A2's optional `(\[[^\]]*\])?` parameter. -/
def cmdPar (rest : List Char) : Nat :=
  if (rest.drop (cmdLetters rest + cmdStar rest)).head? = some '[' then
    (if ((rest.drop (cmdLetters rest + cmdStar rest)).tail.drop (cmdParJ rest)).head? =
        some ']' then cmdParJ rest + 2
     else 0)
  else 0

/-- Characters consumed by A2's optional brace-group argument. -/
def cmdGrp (rest : List Char) : Nat :=
  if (rest.drop (cmdLetters rest + cmdStar rest + cmdPar rest)).head? = some '\x7b' then
    (braceBodyLen (rest.drop (cmdLetters rest + cmdStar rest + cmdPar rest)).tail).elim 0
      (fun g => g + 1)
  else 0

/-- Alternative A2, a command name with optional star, optional `[...]`
parameter and optional one-level-nested `{...}` argument. -/
def commandLen (cs : List Char) : Option Nat :=
  if cs.head? = some '\\' then
    if cmdLetters cs.tail = 0 then none
    else some (1 + cmdLetters cs.tail + cmdStar cs.tail + cmdPar cs.tail + cmdGrp cs.tail)
  else none

/-- The character class accidentally formed by source lines 16–18
(see the header comment). -/
def classChars : List Char :=
  [' ', '\n', '#', '|', '$', '?', '(', ')', '%', '[', '^',
   'S', 't', 'a', 'r', 'o', 'f', 'm', 'h', 'b', 'l', 'c', 'k',
   'M', 'd', 'e', 'i', 'n', 's', 'p', 'y']

/-- Alternative A7, `\\[CLASS]*`: a backslash followed by a greedy run of
class characters. -/
def backslashClassLen (cs : List Char) : Option Nat :=
  if cs.head? = some '\\' then
    some (1 + countWhile (fun c => classChars.contains c) cs.tail)
  else none

/-- A single-character alternative such as `\{` or `&`. -/
def singleLen (c : Char) (cs : List Char) : Option Nat :=
  if cs.head? = some c then some 1 else none

/-- A `X+` alternative for a character class `X`. -/
def runLen (p : Char → Bool) (cs : List Char) : Option Nat :=
  let j := countWhile p cs
  if j = 0 then none else some j

/-- Alternative A8, `\\.` (unreachable behind A7, kept for fidelity). -/
def escapeLen (cs : List Char) : Option Nat :=
  if cs.head? = some '\\' ∧ cs.tail.head?.isSome ∧ ¬ cs.tail.head? = some '\n' then
    some 2
  else none

/-- Alternative A10, `\\\\` (unreachable behind A7, kept for fidelity). -/
def doubleBackslashLen (cs : List Char) : Option Nat :=
  if cs.head? = some '\\' ∧ cs.tail.head? = some '\\' then some 2 else none

def isTextChar (c : Char) : Bool :=
  ¬ (c = '\\' ∨ c = '\x7b' ∨ c = '\x7d' ∨ c = '[' ∨ c = ']' ∨
     c = '$' ∨ c = '%' ∨ c = '&') ∧ ¬ pyIsSpace c

/-- Length of the `LATEX_PATTERN` match starting at the head of the input,
`0` when no alternative matches there.  Alternatives are tried in the
source's order. -/
def matchLen (cs : List Char) : Nat :=
  (beginEndLen cs <|> commandLen cs <|>
   singleLen '\x7b' cs <|> singleLen '\x7d' cs <|>
   singleLen '[' cs <|> singleLen ']' cs <|>
   backslashClassLen cs <|> escapeLen cs <|> singleLen '&' cs <|>
   doubleBackslashLen cs <|>
   runLen (fun c => c = ' ' ∨ c = '\t') cs <|>
   runLen (fun c => c = '\n') cs <|>
   runLen isTextChar cs).getD 0

/-- `re.finditer` over the buffer: successive non-overlapping matches; a
position where no alternative matches is skipped.  Each step consumes at
least one character, so `fuel := cs.length` always suffices. -/
def scanAuxF : Nat → List Char → Nat → List (Nat × List Char)
  | _, [], _ => []
  | 0, _ :: _, _ => []
  | fuel + 1, c :: rest, pos =>
    let n := matchLen (c :: rest)
    if n = 0 then scanAuxF fuel rest (pos + 1)
    else (pos, (c :: rest).take n) :: scanAuxF fuel ((c :: rest).drop n) (pos + n)

/-- All matches of `LATEX_PATTERN` in `cs`, with absolute start offsets
(the scan starts at absolute position `pos`). -/
def scanChunks (cs : List Char) (pos : Nat) : List (Nat × List Char) :=
  scanAuxF cs.length cs pos

def structurePrefixes : List (List Char) :=
  [("\\chapter").toList, ("\\section").toList, ("\\subsection").toList,
   ("\\subsubsection").toList, ("\\paragraph").toList, ("\\subparagraph").toList,
   ("\\emph").toList, ("\\textbf").toList, ("\\note").toList]

def definePrefixes : List (List Char) :=
  [("\\newcommand").toList, ("\\renewcommand").toList, ("\\def").toList]

/-- `is_punctuation` from the source. -/
def is_punctuation (t : List Char) : Bool :=
  t.length = 1 ∧ (".,;:!?()-").toList.contains (t.headD ' ')

def toLowerAscii (c : Char) : Char :=
  if 'A' ≤ c ∧ c ≤ 'Z' then Char.ofNat (c.toNat + 32) else c

def isFileClassChar (c : Char) : Bool :=
  isAsciiLetter c ∨ isAsciiDigit c ∨ c = '_' ∨ c = '-' ∨ c = '.' ∨ c = '/' ∨ c = '\\'

/-- `is_filepath_or_filename`: `re.match(r'[\w\-./\\]+\.(tex|eps|pdf|png|jpg|jpeg)$', t, re.IGNORECASE)`.
The anchored match succeeds exactly when the token ends (case-insensitively)
in a dot plus one of the extensions, preceded by a nonempty run of class
characters. -/
def is_filepath_or_filename (t : List Char) : Bool :=
  (["tex", "eps", "pdf", "png", "jpg", "jpeg"].map String.toList).any fun e =>
    let n := t.length
    e.length + 2 ≤ n ∧ ((t.drop (n - e.length)).map toLowerAscii) = e ∧
    (t.drop (n - e.length - 1)).head? = some '.' ∧
    ((t.take (n - e.length - 1)).all isFileClassChar)

/-- `is_latex_command` from the source. -/
def is_latex_command (t : List Char) : Bool :=
  ("\\").toList.isPrefixOf t && ! (("\\begin").toList.isPrefixOf t) &&
  ! (("\\end").toList.isPrefixOf t)

def isRefHeadChar (c : Char) : Bool :=
  isAsciiLetter c ∨ isAsciiDigit c ∨ c = ':' ∨ c = '_' ∨ c = '-'

/-- Python `str.strip()` (ASCII whitespace fragment). -/
def pyStrip (t : List Char) : List Char :=
  ((t.dropWhile pyIsSpace).reverse.dropWhile pyIsSpace).reverse

/-- `token.startswith(('\\begin', '\\end'))` -/
def isEnvTok (t : List Char) : Bool :=
  ("\\begin").toList.isPrefixOf t || ("\\end").toList.isPrefixOf t

/-- `token.startswith(('\\chapter', ..., '\\note'))` -/
def isStructureTok (t : List Char) : Bool := structurePrefixes.any fun p => p.isPrefixOf t

/-- `token.startswith(('\\newcommand', '\\renewcommand', '\\def'))` -/
def isDefineTok (t : List Char) : Bool := definePrefixes.any fun p => p.isPrefixOf t

/-- `token in ['{', '}', '[', ']']` -/
def isBracketTok (t : List Char) : Bool :=
  t = ("\x7b").toList || t = ("\x7d").toList || t = ("[").toList || t = ("]").toList

/-- `token in ['\\[', '\\]', '$', '$$']` -/
def isMathTok (t : List Char) : Bool :=
  t = ("\\[").toList || t = ("\\]").toList || t = ("$").toList || t = ("$$").toList

/-- `token in ['&', '\\\\']` -/
def isTableSepTok (t : List Char) : Bool := t = ("&").toList || t = ("\\\\").toList

/-- `token.startswith('%')` -/
def isCommentTok (t : List Char) : Bool := ("%").toList.isPrefixOf t

/-- `token.isspace()` -/
def isSpaceTok (t : List Char) : Bool := ! t.isEmpty && t.all pyIsSpace

/-- `re.match(r'[a-zA-Z0-9:_-]+', token) and ':' in token` -/
def isReferenceTok (t : List Char) : Bool :=
  isRefHeadChar (t.headD ' ') && ! t.isEmpty && t.contains ':'

/-- `get_token_type` from the source, branch for branch. -/
def get_token_type (t : List Char) : String :=
  if isEnvTok t then "environment"
  else if isStructureTok t then "structure"
  else if isDefineTok t then "define"
  else if is_latex_command t then "command"
  else if isBracketTok t then "bracket"
  else if isMathTok t then "math"
  else if isTableSepTok t then "table_separator"
  else if isCommentTok t then "comment"
  else if isSpaceTok t then
    (if t.contains '\n' then "newline" else "whitespace")
  else if is_filepath_or_filename t then "filepath"
  else if isReferenceTok t then "reference"
  else if is_punctuation t then "punctuation"
  else if ! (pyStrip t).isEmpty then "text"
  else "whitespace"

/-- One token of the stream; fields mirror the Python dict keys
`type, value, line, position[0], position[1], multiline, block`. -/
structure Tok where
  ty : String
  value : List Char
  line : Nat
  posStart : Nat
  posEnd : Nat
  multiline : Bool
  block : Nat
deriving DecidableEq, Repr, Inhabited

def mkTok (ty : String) (v : List Char) (line s e : Nat) : Tok :=
  ⟨ty, v, line, s, e, false, 0⟩

/-- The body of the `for match in ...` loop of `tokenize_content` for one
match `(s, m)`: emission of the token(s), including the nested-argument
expansion for `structure`/`command` tokens carrying a `{`.  `rec` is the
recursive call to `tokenize_content` for the argument interior. -/
def emitOneWith (rec : List Char → Nat → Nat → List Tok)
    (s : Nat) (m : List Char) (line : Nat) : List Tok :=
  let ty := get_token_type m
  if ty = "environment" then [mkTok ty m line s (s + m.length)]
  else if ty = "structure" ∨ ty = "command" then
    if m.contains '\x7b' then
      let ce := m.findIdx (fun d => d = '\x7b')
      [mkTok ty (m.take ce) line s (s + ce),
       mkTok "bracket" ['\x7b'] line (s + ce) (s + ce + 1)]
      ++ rec ((m.drop (ce + 1)).dropLast) line (s + ce + 1)
      ++ [mkTok "bracket" ['\x7d'] line (s + m.length - 1) (s + m.length)]
    else [mkTok ty m line s (s + m.length)]
  else [mkTok ty m line s (s + m.length)]

/-- The match loop of `tokenize_content`, threading the mutable `line`
counter (advanced only after a `newline`-typed match). -/
def emitAllWith (rec : List Char → Nat → Nat → List Tok) :
    List (Nat × List Char) → Nat → List Tok
  | [], _ => []
  | (s, m) :: rest, line =>
    emitOneWith rec s m line ++
      emitAllWith rec rest
        (if get_token_type m = "newline" then line + m.count '\n' else line)

/-- `tokenize_content`, with a fuel bound on the nesting depth of the
argument-expansion recursion.  Each recursion level strictly shrinks the
content, so `content.length + 1` fuel is always sufficient. -/
def tokenize_contentF : Nat → List Char → Nat → Nat → List Tok
  | 0, _, _, _ => []
  | fuel + 1, content, line, start =>
    emitAllWith (fun inner l st => tokenize_contentF fuel inner l st)
      (scanChunks content start) line

def tokenize_content (content : List Char) (line start : Nat) : List Tok :=
  tokenize_contentF (content.length + 1) content line start

/-- The block-tracking loop of `tokenize_latex`: `stack` is the Python
`block_stack` with its top at the head, `cb` is `current_block`. -/
def stampBlocks : List Tok → List Nat → Nat → List Tok
  | [], _, _ => []
  | t :: rest, stack, cb =>
    if (t.ty = "structure" ∨ t.ty = "environment") ∧
        ("\\begin").toList.isPrefixOf t.value then
      { t with block := cb + 1 } :: stampBlocks rest ((cb + 1) :: stack) (cb + 1)
    else if t.ty = "environment" ∧ ("\\end").toList.isPrefixOf t.value ∧
        1 < stack.length then
      { t with block := stack.tail.headD 0 } ::
        stampBlocks rest stack.tail (stack.tail.headD 0)
    else { t with block := stack.headD 0 } :: stampBlocks rest stack cb

/-- `tokenize_latex` from the source. -/
def tokenize_latex (text : List Char) : List Tok :=
  stampBlocks (tokenize_content text 1 0) [0] 0

/-- `detokenize_latex` from the source: concatenation of the `value` fields. -/
def detokenize_latex (tokens : List Tok) : List Char :=
  (tokens.map Tok.value).flatten

/-- `mock_translate` from the source. -/
def mock_translate (t : List Char) : List Char := t ++ (" (oversatt)").toList

/-- `' '.join` -/
def joinSpace : List (List Char) → List Char
  | [] => []
  | [w] => w
  | w :: ws => w ++ ' ' :: joinSpace ws

/-- The `text_block` token flushed by `consolidate_text_tokens`. -/
def flushTok (vals : List (List Char)) (s line e blk : Nat) : Tok :=
  ⟨"text_block", joinSpace vals, line, s, e, false, blk⟩

/-- The loop of `consolidate_text_tokens`; `lastTok` is `tokens[-1]` of the
original list (used by the end-of-stream flush), `buf/s/l` are
`current_text/current_text_start/current_line`. -/
def consolidateAux (lastTok : Tok) :
    List Tok → List (List Char) → Nat → Nat → List Tok
  | [], buf, s, l =>
    if buf = [] then [] else [flushTok buf s l lastTok.posEnd lastTok.block]
  | t :: rest, buf, s, l =>
    if t.ty = "text" then
      if buf = [] then consolidateAux lastTok rest [t.value] t.posStart t.line
      else consolidateAux lastTok rest (buf ++ [t.value]) s l
    else
      if buf = [] then t :: consolidateAux lastTok rest [] s l
      else flushTok buf s l t.posStart t.block :: t :: consolidateAux lastTok rest [] 0 0

/-- `consolidate_text_tokens` from the source. -/
def consolidate_text_tokens (tokens : List Tok) : List Tok :=
  consolidateAux (tokens.getLastD default) tokens [] 0 0

/-- Python `str.split()` without arguments: split on whitespace runs,
dropping empty fields. -/
def pySplitGo : List Char → List Char → List (List Char)
  | [], w => if w = [] then [] else [w.reverse]
  | c :: rest, w =>
    if pyIsSpace c then
      (if w = [] then pySplitGo rest [] else w.reverse :: pySplitGo rest [])
    else pySplitGo rest (c :: w)

def pySplit (t : List Char) : List (List Char) := pySplitGo t []

/-- `split_text_block` from the source. -/
def split_text_block (original translated : List Char) : List (List Char) :=
  if (pySplit original).length = (pySplit translated).length then pySplit translated
  else [translated]

/-- The emission loop of `translate_latex_document` (source lines 232–242):
one `text` token per item, walking the synthetic start offset forward by
`len(word) + 1`. -/
def emitWords (line blk : Nat) : List (List Char) → Nat → List Tok
  | [], _ => []
  | w :: ws, start =>
    ⟨"text", w, line, start, start + w.length, false, blk⟩ ::
      emitWords line blk ws (start + w.length + 1)

/-- The tokens a `text_block` is replaced by once `translated` came back
from the translation capability (source lines 229–242). -/
def translateBlockTokens (t : Tok) (translated : List Char) : List Tok :=
  emitWords t.line t.block (split_text_block t.value translated) t.posStart

/-- Python `x in s` substring test. -/
def containsSub (pat : List Char) : List Char → Bool
  | [] => pat.isPrefixOf ([] : List Char)
  | c :: rest => pat.isPrefixOf (c :: rest) ∨ containsSub pat rest

/-- One iteration of the loop of `translate_latex_document`: the state is
`(in_table, translated_tokens)`. -/
def translateStep (st : Bool × List Tok) (t : Tok) : Bool × List Tok :=
  let inT :=
    if t.ty = "environment" ∧
        (containsSub (("tabular").toList) t.value ∨ containsSub (("table").toList) t.value) then
      containsSub (("\\begin").toList) t.value
    else st.1
  if t.ty = "text_block" then
    if ¬ inT ∨ (inT ∧ ¬ (pyStrip t.value).head? = some '\\') then
      (inT, st.2 ++ translateBlockTokens t (mock_translate t.value))
    else (inT, st.2 ++ [t])
  else (inT, st.2 ++ [t])

/-- `translate_latex_document` from the source. -/
def translate_latex_document (text : List Char) : List Char :=
  detokenize_latex
    (((consolidate_text_tokens (tokenize_latex text)).foldl translateStep (false, [])).2)

/-!  ## Specification-side definitions

`specWalk`/`specResplitTokens` follow the wording of the (amended) spec for
the translation re-split, to be compared with the code's
`translateBlockTokens`: one `text` token per word, each span walked forward
from the block's start advancing by `len(word) + 1`; in the fallback the
whole translated string becomes one `text` token whose span starts at the
block's start and extends by the translated length. -/

def specWalk (line blk : Nat) : Nat → List (List Char) → List Tok
  | _, [] => []
  | start, w :: ws =>
    ⟨"text", w, line, start, start + w.length, false, blk⟩ ::
      specWalk line blk (start + w.length + 1) ws

def specResplitTokens (t : Tok) (translated : List Char) : List Tok :=
  if (pySplit t.value).length = (pySplit translated).length then
    specWalk t.line t.block t.posStart (pySplit translated)
  else
    [⟨"text", translated, t.line, t.posStart, t.posStart + translated.length,
      false, t.block⟩]

/-! ## Helper lemmas -/

theorem endPrefix_not_beginPrefix {v : List Char}
    (h : (("\\end").toList.isPrefixOf v) = true) :
    ¬ ((("\\begin").toList.isPrefixOf v) = true) := by
  intro hb
  rw [List.isPrefixOf_iff_prefix] at h hb
  obtain ⟨t, rfl⟩ := h
  rw [show ("\\begin").toList = '\\' :: 'b' :: ("egin").toList from rfl] at hb
  rw [show (("\\end").toList ++ t) = '\\' :: 'e' :: (('n' :: 'd' :: t)) from rfl] at hb
  rw [List.cons_prefix_cons, List.cons_prefix_cons] at hb
  exact absurd hb.2.1 (by decide)

/-! ## Claims C3, C4, C10 (concrete tokenizations) -/

/-- **C3** (counterexample to the claim as stated): tokenizing
`\section{Intro}` does yield the four expected tokens, but their spans cover
the 15-character input `[0, 15)` — there is no "16-character substring"; no
token span reaches offset 16. -/
theorem c3_section_intro_counterexample :
    ((tokenize_latex (("\\section\x7bIntro\x7d").toList)).map
        (fun t => (t.posStart, t.posEnd))) = [(0, 8), (8, 9), (9, 14), (14, 15)] ∧
      (("\\section\x7bIntro\x7d").toList).length ≠ 16 := by
  constructor
  · decide
  · decide

/-- **C3** (amended: the substring has 15 characters): `\section{Intro}`
tokenizes to exactly four tokens in order — `structure` value `\section`,
`bracket` `{`, `text` `Intro`, `bracket` `}` — with contiguous spans covering
the original 15-character substring `[0, 15)`. -/
theorem c3_section_intro_tokens :
    tokenize_latex (("\\section\x7bIntro\x7d").toList) =
      [⟨"structure", ("\\section").toList, 1, 0, 8, false, 0⟩,
       ⟨"bracket", ['\x7b'], 1, 8, 9, false, 0⟩,
       ⟨"text", ("Intro").toList, 1, 9, 14, false, 0⟩,
       ⟨"bracket", ['\x7d'], 1, 14, 15, false, 0⟩] ∧
      (("\\section\x7bIntro\x7d").toList).length = 15 := by
  constructor
  · decide
  · decide

/-- **C4**: for `\begin{itemize}\item A\end{itemize}`, the opener and all
interior tokens (`\item`, the separating whitespace and the text `A`) carry
block id 1, and every token whose span starts at or after the matching
`\end` (offset 22) carries block id 0. -/
theorem c4_itemize_block_ids :
    tokenize_latex (("\\begin\x7bitemize\x7d\\item A\\end\x7bitemize\x7d").toList) =
      [⟨"environment", ("\\begin\x7bitemize\x7d").toList, 1, 0, 15, false, 1⟩,
       ⟨"command", ("\\item").toList, 1, 15, 20, false, 1⟩,
       ⟨"whitespace", [' '], 1, 20, 21, false, 1⟩,
       ⟨"text", ['A'], 1, 21, 22, false, 1⟩,
       ⟨"environment", ("\\end\x7bitemize\x7d").toList, 1, 22, 35, false, 0⟩] ∧
      ∀ t ∈ tokenize_latex (("\\begin\x7bitemize\x7d\\item A\\end\x7bitemize\x7d").toList),
        22 ≤ t.posStart → t.block = 0 := by
  constructor
  · decide
  · decide

/-- **C10**: the block tracker pops on every `environment` token whose value
starts with `\end` while the stack holds more than the root — the equation
below holds for an arbitrary value with that prefix, so the environment name
is never compared with the opener's.  Concretely, in `\begin{a}x\end{b}y`
the token `\end{b}` closes the block opened by `\begin{a}`: it and the
following text `y` carry block id 0. -/
theorem c10_end_pops_without_name_check :
    (∀ (rest : List Tok) (stack : List Nat) (cb : Nat) (t : Tok),
        t.ty = "environment" → (("\\end").toList.isPrefixOf t.value) = true →
        1 < stack.length →
        stampBlocks (t :: rest) stack cb =
          { t with block := stack.tail.headD 0 } ::
            stampBlocks rest stack.tail (stack.tail.headD 0)) ∧
      tokenize_latex (("\\begin\x7ba\x7dx\\end\x7bb\x7dy").toList) =
        [⟨"environment", ("\\begin\x7ba\x7d").toList, 1, 0, 9, false, 1⟩,
         ⟨"text", ['x'], 1, 9, 10, false, 1⟩,
         ⟨"environment", ("\\end\x7bb\x7d").toList, 1, 10, 17, false, 0⟩,
         ⟨"text", ['y'], 1, 17, 18, false, 0⟩] := by
  constructor
  · intro rest stack cb t hty hend hlen
    have hnb := endPrefix_not_beginPrefix hend
    rw [stampBlocks]
    rw [if_neg (by rintro ⟨-, h⟩; exact hnb h), if_pos ⟨hty, hend, hlen⟩]
  · decide

/-- **C10** witness: the pop equation applied to the concrete token
`\end{b}` with stack `[1, 0]`. -/
theorem c10_end_pops_witness :
    stampBlocks [⟨"environment", ("\\end\x7bb\x7d").toList, 1, 0, 7, false, 0⟩] [1, 0] 1 =
      [⟨"environment", ("\\end\x7bb\x7d").toList, 1, 0, 7, false, 0⟩] := by
  have h := c10_end_pops_without_name_check.1 []
    [1, 0] 1 ⟨"environment", ("\\end\x7bb\x7d").toList, 1, 0, 7, false, 0⟩
    rfl (by decide) (by decide)
  simpa using h

/-! ## Claim C5 (translation re-split) -/

theorem emitWords_eq_specWalk (ws : List (List Char)) :
    ∀ (line blk start : Nat), emitWords line blk ws start = specWalk line blk start ws := by
  induction ws with
  | nil => intro line blk start; rfl
  | cons w ws ih =>
    intro line blk start
    rw [emitWords, specWalk, ih]

/-- **C5** (counterexample to the fallback clause as stated): for the block
`text_block("Hello world")` with span `(0, 11)` and translated text
`"Bonjour"` (word counts 2 ≠ 1), the single emitted token spans `(0, 7)` =
`(start, start + len(translated))`, not the original block's span `(0, 11)`. -/
theorem c5_fallback_span_counterexample :
    ((translateBlockTokens ⟨"text_block", ("Hello world").toList, 1, 0, 11, false, 0⟩
        (("Bonjour").toList)).map (fun t => (t.posStart, t.posEnd))) = [(0, 7)] ∧
      ¬ (((0 : Nat), (7 : Nat)) = ((0 : Nat), (11 : Nat))) := by
  constructor
  · decide
  · decide

/-- **C5** (amended): the re-split of a translated `text_block` agrees with
the spec-side description `specResplitTokens` — one `text` token per
translated word with synthetic spans walked forward by `len(word) + 1` when
the word counts match, and otherwise a single `text` token whose span starts
at the block's start and extends by the length of the translated string (not
by the original block's width).  Concretely, `"Hello world"` with translation
`"Bonjour monde"` yields exactly the two tokens `Bonjour` and `monde` with
spans `(0, 7)` and `(8, 13)`. -/
theorem c5_resplit_refines_spec :
    (∀ (t : Tok) (tr : List Char), translateBlockTokens t tr = specResplitTokens t tr) ∧
      translateBlockTokens ⟨"text_block", ("Hello world").toList, 1, 0, 11, false, 0⟩
          (("Bonjour monde").toList) =
        [⟨"text", ("Bonjour").toList, 1, 0, 7, false, 0⟩,
         ⟨"text", ("monde").toList, 1, 8, 13, false, 0⟩] := by
  constructor
  · intro t tr
    rw [translateBlockTokens, specResplitTokens, split_text_block]
    by_cases h : (pySplit t.value).length = (pySplit tr).length
    · rw [if_pos h, if_pos h, emitWords_eq_specWalk]
    · rw [if_neg h, if_neg h, emitWords, emitWords]
  · decide

/-! ## Claim C7 (table suppression) -/

def beginTabularTok : Tok :=
  ⟨"environment", ("\\begin\x7btabular\x7d").toList, 1, 0, 15, false, 0⟩

def endTabularTok : Tok :=
  ⟨"environment", ("\\end\x7btabular\x7d").toList, 1, 0, 13, false, 0⟩

/-- **C7**: in the loop of `translate_latex_document`, (i) with the table
flag set, a `text_block` whose stripped value starts with a command escape is
appended unchanged — it is not sent to `translate`; (ii) with the flag
clear, any `text_block` (the same one included) is replaced by the re-split
of its translation; (iii) the flag is set by the `\begin{tabular}`
environment token and cleared by `\end{tabular}`. -/
theorem c7_table_suppression :
    (∀ (out : List Tok) (t : Tok), t.ty = "text_block" →
        (pyStrip t.value).head? = some '\\' →
        translateStep (true, out) t = (true, out ++ [t])) ∧
      (∀ (out : List Tok) (t : Tok), t.ty = "text_block" →
        translateStep (false, out) t =
          (false, out ++ translateBlockTokens t (mock_translate t.value))) ∧
      (∀ (b : Bool) (out : List Tok),
        translateStep (b, out) beginTabularTok = (true, out ++ [beginTabularTok]) ∧
        translateStep (b, out) endTabularTok = (false, out ++ [endTabularTok])) := by
  refine ⟨?_, ?_, ?_⟩
  · intro out t hty hbs
    simp [translateStep, hty, hbs]
  · intro out t hty
    simp [translateStep, hty]
  · intro b out
    have h1 : containsSub (("tabular").toList) (("\\begin\x7btabular\x7d").toList) = true := by
      decide
    have h2 : containsSub (("\\begin").toList) (("\\begin\x7btabular\x7d").toList) = true := by
      decide
    have h3 : containsSub (("tabular").toList) (("\\end\x7btabular\x7d").toList) = true := by
      decide
    have h4 : containsSub (("\\begin").toList) (("\\end\x7btabular\x7d").toList) = false := by
      decide
    constructor
    · simp +decide [translateStep, beginTabularTok, h1, h2]
    · simp +decide [translateStep, endTabularTok, h3, h4]

/-- **C7** witness: both branches at concrete blocks — inside a table the
block `\hline x` passes through unchanged; outside, `Hello` is translated. -/
theorem c7_table_suppression_witness :
    translateStep (true, [])
        ⟨"text_block", ("\\hline x").toList, 1, 0, 8, false, 1⟩ =
      (true, [⟨"text_block", ("\\hline x").toList, 1, 0, 8, false, 1⟩]) ∧
      translateStep (false, []) ⟨"text_block", ("Hello").toList, 1, 0, 5, false, 0⟩ =
        (false, translateBlockTokens ⟨"text_block", ("Hello").toList, 1, 0, 5, false, 0⟩
          (mock_translate (("Hello").toList))) := by
  constructor
  · exact c7_table_suppression.1 [] ⟨"text_block", ("\\hline x").toList, 1, 0, 8, false, 1⟩
      rfl (by decide)
  · exact c7_table_suppression.2.1 [] ⟨"text_block", ("Hello").toList, 1, 0, 5, false, 0⟩ rfl

/-! ## Counterexamples for claims C1, C2, C8, C9 -/

/-- **C1** (counterexample): the compiled scanner has no alternative matching
a lone `$`, so `tokenize_latex "$"` is empty and detokenization returns the
empty document, not `"$"`. -/
theorem c1_round_trip_counterexample :
    detokenize_latex (tokenize_latex (("$").toList)) ≠ ("$").toList := by
  decide

/-- **C2** (counterexample): on the 1-character input `$` the tokenizer
produces no tokens at all, so the union of the pre-consolidation spans is
empty rather than `[0, 1)`. -/
theorem c2_span_partition_counterexample :
    tokenize_latex (("$").toList) = [] ∧ (("$").toList).length = 1 := by
  constructor
  · decide
  · decide

/-- **C8** (counterexample to the degradation clause): on input `%x` the
`%` matches no alternative of the compiled pattern and is silently skipped —
no opaque or misclassified token is produced for it; the only token starts
at offset 1. -/
theorem c8_unmatched_dropped_counterexample :
    tokenize_latex (("%x").toList) = [⟨"text", ['x'], 1, 1, 2, false, 0⟩] ∧
      ∀ t ∈ tokenize_latex (("%x").toList), t.posStart ≠ 0 := by
  constructor
  · decide
  · decide

/-- **C9** (counterexample): in `\section{a\nb}c` the newline sits inside the
command's braced argument; the recursive call advances its own line counter
but the outer loop's counter stays at 1, so the closing `}` (offset 12) and
the text `c` (offset 13) — both on source line 2 — carry `line = 1`. -/
theorem c9_stale_line_counterexample :
    ¬ (∀ t ∈ tokenize_latex (("\\section\x7ba\nb\x7dc").toList),
        t.line = 1 + (((("\\section\x7ba\nb\x7dc").toList).take t.posStart).count '\n')) := by
  decide

/-! ## Claim C6 (consolidation) -/

theorem getLastD_append_of_ne_nil (xs ys : List Tok) (d : Tok) (h : ys ≠ []) :
    (xs ++ ys).getLastD d = ys.getLastD d := by
  rw [List.getLastD_eq_getLast?, List.getLastD_eq_getLast?,
    List.getLast?_append_of_ne_nil xs h]

theorem consolidateAux_run (L : Tok) (rs : List Tok) (hrs : ∀ t ∈ rs, t.ty = "text") :
    ∀ (tail : List Tok) (buf : List (List Char)) (s l : Nat), buf ≠ [] →
      consolidateAux L (rs ++ tail) buf s l =
        consolidateAux L tail (buf ++ rs.map Tok.value) s l := by
  induction rs with
  | nil => intro tail buf s l _; simp
  | cons r rs ih =>
    intro tail buf s l hbuf
    rw [List.cons_append, consolidateAux, if_pos (hrs r (by simp)), if_neg hbuf,
      ih (fun t ht => hrs t (by simp [ht])) tail (buf ++ [r.value]) s l (by simp),
      List.append_assoc]
    rfl

theorem consolidateAux_flush (L u : Tok) (hu : ¬ u.ty = "text") (rest : List Tok)
    (buf : List (List Char)) (hbuf : buf ≠ []) (s l : Nat) :
    consolidateAux L (u :: rest) buf s l =
      flushTok buf s l u.posStart u.block :: u :: consolidateAux L rest [] 0 0 := by
  rw [consolidateAux, if_neg hu, if_neg hbuf]

/-- **C6**: consolidating `text("Hello") text("world") command("\section")`
yields exactly one `text_block` valued `"Hello world"` followed by the
unchanged command token; in general any non-`text` token terminates an
in-progress run, flushing a `text_block` whose span runs from the first
absorbed token's start to the terminator's position (second conjunct), and a
stream ending mid-run flushes a block ending at the last token's end (third
conjunct). -/
theorem c6_consolidation_boundary :
    consolidate_text_tokens
        [⟨"text", ("Hello").toList, 1, 0, 5, false, 0⟩,
         ⟨"text", ("world").toList, 1, 6, 11, false, 0⟩,
         ⟨"command", ("\\section").toList, 1, 12, 20, false, 0⟩] =
      [⟨"text_block", ("Hello world").toList, 1, 0, 12, false, 0⟩,
       ⟨"command", ("\\section").toList, 1, 12, 20, false, 0⟩] ∧
      (∀ (run : List Tok) (u : Tok) (rest : List Tok), run ≠ [] →
        (∀ t ∈ run, t.ty = "text") → ¬ u.ty = "text" →
        consolidate_text_tokens (run ++ u :: rest) =
          flushTok (run.map Tok.value) (run.headD default).posStart
              (run.headD default).line u.posStart u.block ::
            u :: consolidate_text_tokens rest) ∧
      (∀ (run : List Tok), run ≠ [] → (∀ t ∈ run, t.ty = "text") →
        consolidate_text_tokens run =
          [flushTok (run.map Tok.value) (run.headD default).posStart
            (run.headD default).line (run.getLastD default).posEnd
            (run.getLastD default).block]) := by
  refine ⟨by decide, ?_, ?_⟩
  · intro run u rest hne hrun hu
    obtain ⟨r, rs, rfl⟩ := List.exists_cons_of_ne_nil hne
    rw [consolidate_text_tokens, List.cons_append, consolidateAux,
      if_pos (hrun r (by simp)), if_pos rfl,
      consolidateAux_run _ rs (fun t ht => hrun t (by simp [ht])) (u :: rest)
        [r.value] r.posStart r.line (by simp),
      List.singleton_append,
      consolidateAux_flush _ u hu rest (r.value :: rs.map Tok.value) (by simp)]
    cases rest with
    | nil =>
      rw [consolidateAux, if_pos rfl]
      rfl
    | cons x xs =>
      rw [show r :: (rs ++ u :: x :: xs) = (r :: rs) ++ (u :: x :: xs) by
            rw [List.cons_append],
        getLastD_append_of_ne_nil (r :: rs) (u :: x :: xs) default (by simp),
        show (u :: x :: xs).getLastD default = (x :: xs).getLastD default by
          rw [List.getLastD_eq_getLast?, List.getLastD_eq_getLast?,
            List.getLast?_cons_cons]]
      rfl
  · intro run hne hrun
    obtain ⟨r, rs, rfl⟩ := List.exists_cons_of_ne_nil hne
    rw [consolidate_text_tokens, show (r :: rs) = (r :: rs) ++ [] by simp,
      List.cons_append, consolidateAux, if_pos (hrun r (by simp)), if_pos rfl,
      consolidateAux_run _ rs (fun t ht => hrun t (by simp [ht])) []
        [r.value] r.posStart r.line (by simp),
      consolidateAux, if_neg (by simp)]
    simp

/-- **C6** witness: the two general conjuncts instantiated at the concrete
stream of the first conjunct and at its two-token all-text prefix. -/
theorem c6_consolidation_witness :
    consolidate_text_tokens
        [⟨"text", ("Hello").toList, 1, 0, 5, false, 0⟩,
         ⟨"text", ("world").toList, 1, 6, 11, false, 0⟩,
         ⟨"command", ("\\section").toList, 1, 12, 20, false, 0⟩] =
      flushTok [("Hello").toList, ("world").toList] 0 1 12 0 ::
        ⟨"command", ("\\section").toList, 1, 12, 20, false, 0⟩ ::
        consolidate_text_tokens [] ∧
      consolidate_text_tokens
          [⟨"text", ("Hello").toList, 1, 0, 5, false, 0⟩,
           ⟨"text", ("world").toList, 1, 6, 11, false, 0⟩] =
        [flushTok [("Hello").toList, ("world").toList] 0 1 11 0] := by
  constructor
  · exact c6_consolidation_boundary.2.1
      [⟨"text", ("Hello").toList, 1, 0, 5, false, 0⟩,
       ⟨"text", ("world").toList, 1, 6, 11, false, 0⟩]
      ⟨"command", ("\\section").toList, 1, 12, 20, false, 0⟩ []
      (by decide) (by decide) (by decide)
  · exact c6_consolidation_boundary.2.2
      [⟨"text", ("Hello").toList, 1, 0, 5, false, 0⟩,
       ⟨"text", ("world").toList, 1, 6, 11, false, 0⟩]
      (by decide) (by decide)

/-! ## Scanner lemmas: the shape of a match

A match produced by `matchLen` that starts with a backslash and contains a
`{` never *ends* with `{`: the brace comes from a `[...]` parameter (the
match then ends in `]`) or from a brace group (the match then ends in `}`).
This is the key well-formedness fact behind the argument expander's span
arithmetic. -/

theorem countWhile_le_length (p : Char → Bool) : ∀ cs : List Char, countWhile p cs ≤ cs.length
  | [] => Nat.le_refl 0
  | c :: cs => by
    rw [countWhile]
    split
    · exact Nat.succ_le_succ (countWhile_le_length p cs)
    · exact Nat.zero_le _

theorem mem_take_countWhile (p : Char → Bool) :
    ∀ (cs : List Char) (c : Char), c ∈ cs.take (countWhile p cs) → p c = true
  | [], c, h => by simp at h
  | d :: cs, c, h => by
    rw [countWhile] at h
    by_cases hd : p d
    · rw [if_pos hd, List.take_succ_cons] at h
      rcases List.mem_cons.1 h with rfl | h
      · exact hd
      · exact mem_take_countWhile p cs c h
    · rw [if_neg hd] at h
      simp at h

theorem head?_drop_lt_length {l : List Char} {j : Nat} {a : Char}
    (h : (l.drop j).head? = some a) : j < l.length := by
  rcases hd : l.drop j with _ | ⟨x, xs⟩
  · rw [hd] at h; simp at h
  · have : (l.drop j).length = l.length - j := List.length_drop j l
    rw [hd] at this
    simp only [List.length_cons] at this
    omega

theorem take_one_of_head {l : List Char} {a : Char} (h : l.head? = some a) :
    l.take 1 = [a] := by
  cases l with
  | nil => simp at h
  | cons x xs => simp_all

theorem take_marker_concat {body : List Char} {j : Nat} {mk : Char}
    (hhead : (body.drop j).head? = some mk) :
    body.take (j + 1) = body.take j ++ [mk] := by
  rw [List.take_add, take_one_of_head hhead]

theorem take_split_concat {xs body : List Char} {k j : Nat} {mk mk2 : Char}
    (hdrop : xs.drop k = mk :: body)
    (hhead : (body.drop j).head? = some mk2) :
    xs.take (k + j + 2) = (xs.take k ++ mk :: body.take j) ++ [mk2] := by
  have h2 : k + j + 2 = k + (j + 1 + 1) := by omega
  rw [h2, List.take_add, hdrop, List.take_succ_cons, take_marker_concat hhead]
  simp

theorem eq_cons_of_head? {l : List Char} {a : Char} (h : l.head? = some a) :
    l = a :: l.tail := by
  cases l <;> simp_all

theorem getLast?_cons_of_ne_nil {a : Char} {l : List Char} (h : l ≠ []) :
    (a :: l).getLast? = l.getLast? := by
  rw [show a :: l = [a] ++ l from rfl, List.getLast?_append_of_ne_nil _ h]

theorem take_ne_nil_of_le {l : List Char} {g : Nat} (hg : 1 ≤ g) (hl : g ≤ l.length) :
    l.take g ≠ [] := by
  have : (l.take g).length = g := List.length_take_of_le hl
  intro hcon
  rw [hcon] at this
  simp at this
  omega

/-- Common tail of the A1 computation: the match ends with the closing `}`. -/
theorem beginEnd_core {rest body : List Char} {k j : Nat}
    (hd : rest.drop k = '\x7b' :: body)
    (hj : (body.drop j).head? = some '\x7d') :
    (('\\' :: rest).take (k + j + 3)).getLast? = some '\x7d' := by
  rw [show k + j + 3 = (k + j + 2) + 1 from rfl, List.take_succ_cons,
    take_split_concat hd hj,
    show ('\\' :: ((rest.take k ++ '\x7b' :: body.take j) ++ ['\x7d'])) =
      ('\\' :: (rest.take k ++ '\x7b' :: body.take j)) ++ ['\x7d'] from rfl]
  exact List.getLast?_concat _

theorem beginEndLen_getLast {cs : List Char} {n : Nat} (h : beginEndLen cs = some n) :
    (cs.take n).getLast? = some '\x7d' := by
  simp only [beginEndLen] at h
  split at h
  · rename_i hbs
    rw [eq_cons_of_head? hbs]
    by_cases hb : cs.tail.take 5 = ("begin").toList
    · rw [if_pos hb, if_neg (by decide : ¬ (5 : Nat) = 0)] at h
      split at h
      · rename_i hbr
        split at h
        · rename_i hcond
          injection h with hn
          rw [← hn]
          exact beginEnd_core (eq_cons_of_head? hbr) hcond.2
        · exact absurd h (by simp)
      · exact absurd h (by simp)
    · rw [if_neg hb] at h
      by_cases he : cs.tail.take 3 = ("end").toList
      · rw [if_pos he, if_neg (by decide : ¬ (3 : Nat) = 0)] at h
        split at h
        · rename_i hbr
          split at h
          · rename_i hcond
            injection h with hn
            rw [← hn]
            exact beginEnd_core (eq_cons_of_head? hbr) hcond.2
          · exact absurd h (by simp)
        · exact absurd h (by simp)
      · rw [if_neg he, if_pos rfl] at h
        exact absurd h (by simp)
  · exact absurd h (by simp)

theorem braceBodyLenF_spec :
    ∀ (fuel : Nat) (body : List Char) (g : Nat), braceBodyLenF fuel body = some g →
      1 ≤ g ∧ g ≤ body.length ∧ (body.take g).getLast? = some '\x7d' := by
  intro fuel
  induction fuel with
  | zero => intro body g h; simp [braceBodyLenF] at h
  | succ fuel ih =>
    intro body g h
    simp only [braceBodyLenF] at h
    split at h
    · rename_i h1
      injection h with hg
      have hbody := eq_cons_of_head? h1
      have hb1 : body.length = body.tail.length + 1 := by
        rw [hbody]; simp
      refine ⟨by omega, by omega, ?_⟩
      rw [hbody, ← hg, List.take_succ_cons, List.take_zero]
      rfl
    · split at h
      · rename_i h1 h2
        split at h
        · rename_i hj
          rcases hbb : braceBodyLenF fuel
              (body.tail.drop (countWhile (fun d => d ≠ '\x7b' ∧ d ≠ '\x7d') body.tail + 1))
            with _ | g' <;> rw [hbb] at h
          · exact absurd h (by simp)
          · simp only [Option.map_some'] at h
            injection h with hg
            obtain ⟨hg1, hg2, hg3⟩ := ih _ _ hbb
            have hjlt : countWhile (fun d => d ≠ '\x7b' ∧ d ≠ '\x7d') body.tail <
                body.tail.length := head?_drop_lt_length hj
            have hlen : (body.tail.drop
                (countWhile (fun d => d ≠ '\x7b' ∧ d ≠ '\x7d') body.tail + 1)).length =
                body.tail.length -
                  (countWhile (fun d => d ≠ '\x7b' ∧ d ≠ '\x7d') body.tail + 1) :=
              List.length_drop _ _
            have hbody := eq_cons_of_head? h2
            have hb1 : body.length = body.tail.length + 1 := by
              rw [hbody]; simp
            refine ⟨by omega, by omega, ?_⟩
            rw [hbody, ← hg,
              show g' + countWhile (fun d => d ≠ '\x7b' ∧ d ≠ '\x7d') body.tail + 2 =
                ((countWhile (fun d => d ≠ '\x7b' ∧ d ≠ '\x7d') body.tail + 1) + g') + 1
                from by omega,
              List.take_succ_cons, List.take_add, take_marker_concat hj]
            have hne : (body.tail.drop
                (countWhile (fun d => d ≠ '\x7b' ∧ d ≠ '\x7d') body.tail + 1)).take g' ≠ [] :=
              take_ne_nil_of_le hg1 hg2
            rw [getLast?_cons_of_ne_nil (by simp), List.getLast?_append_of_ne_nil _ hne]
            exact hg3
        · exact absurd h (by simp)
      · split at h
        · exact absurd h (by simp)
        · rename_i h1 h2 h3
          rcases hbb : braceBodyLenF fuel body.tail with _ | g' <;> rw [hbb] at h
          · exact absurd h (by simp)
          · simp only [Option.map_some'] at h
            injection h with hg
            obtain ⟨hg1, hg2, hg3⟩ := ih _ _ hbb
            rcases hc : body.head? with _ | c
            · exact absurd hc h3
            have hbody := eq_cons_of_head? hc
            have hb1 : body.length = body.tail.length + 1 := by
              rw [hbody]; simp
            refine ⟨by omega, by omega, ?_⟩
            rw [hbody, ← hg, List.take_succ_cons,
              getLast?_cons_of_ne_nil (take_ne_nil_of_le hg1 hg2)]
            exact hg3

theorem mem_getLast?_mem {l : List Char} {a : Char} (h : l.getLast? = some a) : a ∈ l := by
  obtain ⟨hne, heq⟩ := List.mem_getLast?_eq_getLast (show a ∈ l.getLast? from Option.mem_def.2 h)
  rw [heq]
  exact List.getLast_mem hne

theorem cmdStar_cases (rest : List Char) :
    cmdStar rest = 0 ∨
      ((rest.drop (cmdLetters rest)).head? = some '*' ∧ cmdStar rest = 1) := by
  rw [cmdStar]
  split
  · right; exact ⟨by assumption, rfl⟩
  · left; rfl

theorem cmdPar_cases (rest : List Char) :
    cmdPar rest = 0 ∨
      ((rest.drop (cmdLetters rest + cmdStar rest)).head? = some '[' ∧
        ((rest.drop (cmdLetters rest + cmdStar rest)).tail.drop (cmdParJ rest)).head? =
          some ']' ∧
        cmdPar rest = cmdParJ rest + 2) := by
  rw [cmdPar]
  split
  · split
    · right; exact ⟨by assumption, by assumption, rfl⟩
    · left; rfl
  · left; rfl

theorem cmdGrp_cases (rest : List Char) :
    cmdGrp rest = 0 ∨
      (∃ g, (rest.drop (cmdLetters rest + cmdStar rest + cmdPar rest)).head? = some '\x7b' ∧
        braceBodyLen (rest.drop (cmdLetters rest + cmdStar rest + cmdPar rest)).tail = some g ∧
        cmdGrp rest = g + 1) := by
  rw [cmdGrp]
  split
  · rename_i hhead
    rcases hbr : braceBodyLen
        (rest.drop (cmdLetters rest + cmdStar rest + cmdPar rest)).tail with _ | g
    · left; rfl
    · right; exact ⟨g, hhead, rfl, rfl⟩
  · left; rfl

theorem letters_take_getLast {tail : List Char} (hl0 : ¬ cmdLetters tail = 0) :
    ('\\' :: tail.take (cmdLetters tail)).getLast? ≠ some '\x7b' := by
  have hle : cmdLetters tail ≤ tail.length := countWhile_le_length isAsciiLetter tail
  rw [getLast?_cons_of_ne_nil (take_ne_nil_of_le (by omega) hle)]
  intro hcon
  have hmem : '\x7b' ∈ tail.take (cmdLetters tail) := mem_getLast?_mem hcon
  have := mem_take_countWhile isAsciiLetter tail _ hmem
  exact absurd this (by decide)

theorem commandLen_getLast {cs : List Char} {n : Nat} (h : commandLen cs = some n) :
    (cs.take n).getLast? ≠ some '\x7b' := by
  simp only [commandLen] at h
  split at h
  · rename_i hbs
    split at h
    · exact absurd h (by simp)
    · rename_i hl0
      obtain ⟨t, rfl⟩ : ∃ t, cs = '\\' :: t := ⟨cs.tail, eq_cons_of_head? hbs⟩
      simp only [List.tail_cons] at h hl0
      injection h with hn
      rw [← hn,
        show 1 + cmdLetters t + cmdStar t + cmdPar t + cmdGrp t =
          (cmdLetters t + cmdStar t + cmdPar t + cmdGrp t) + 1
          from by omega,
        List.take_succ_cons]
      rcases cmdGrp_cases t with hG | ⟨g, hg, hbr, hG⟩
      · rw [hG, Nat.add_zero]
        rcases cmdPar_cases t with hP | ⟨hp, hj, hP⟩
        · rw [hP, Nat.add_zero]
          rcases cmdStar_cases t with hS | ⟨hs, hS⟩
          · rw [hS, Nat.add_zero]
            exact letters_take_getLast hl0
          · rw [hS, take_marker_concat hs,
              getLast?_cons_of_ne_nil (by simp), List.getLast?_concat]
            decide
        · rw [hP,
            show cmdLetters t + cmdStar t + (cmdParJ t + 2) =
              (cmdLetters t + cmdStar t) + ((cmdParJ t + 1) + 1)
              from by omega,
            List.take_add, eq_cons_of_head? hp, List.take_succ_cons,
            take_marker_concat hj,
            getLast?_cons_of_ne_nil (by simp),
            List.getLast?_append_of_ne_nil _ (List.cons_ne_nil _ _),
            getLast?_cons_of_ne_nil (by simp), List.getLast?_concat]
          decide
      · rw [hG, List.take_add, eq_cons_of_head? hg, List.take_succ_cons]
        obtain ⟨hg1, hg2, hg3⟩ := braceBodyLenF_spec _ _ _ hbr
        rw [getLast?_cons_of_ne_nil (by simp),
          List.getLast?_append_of_ne_nil _ (List.cons_ne_nil _ _),
          getLast?_cons_of_ne_nil (take_ne_nil_of_le hg1 hg2), hg3]
        decide
  · exact absurd h (by simp)

theorem backslashClassLen_no_brace {cs : List Char} {n : Nat}
    (h : backslashClassLen cs = some n) : ¬ '\x7b' ∈ cs.take n := by
  rw [backslashClassLen] at h
  split at h
  · rename_i hbs
    injection h with hn
    obtain ⟨t, rfl⟩ : ∃ t, cs = '\\' :: t := ⟨cs.tail, eq_cons_of_head? hbs⟩
    simp only [List.tail_cons] at hn
    rw [← hn,
      show 1 + countWhile (fun c => classChars.contains c) t =
        (countWhile (fun c => classChars.contains c) t) + 1 from by omega,
      List.take_succ_cons]
    intro hmem
    rcases List.mem_cons.1 hmem with h1 | h1
    · exact absurd h1 (by decide)
    · have := mem_take_countWhile _ t _ h1
      exact absurd this (by decide)
  · exact absurd h (by simp)

theorem matchLen_eq_beginEnd {cs : List Char} {n : Nat} (hbe : beginEndLen cs = some n) :
    matchLen cs = n := by
  rw [matchLen, hbe]
  simp

theorem matchLen_eq_command {cs : List Char} {n : Nat} (hbe : beginEndLen cs = none)
    (hcm : commandLen cs = some n) : matchLen cs = n := by
  rw [matchLen, hbe, hcm]
  simp

theorem matchLen_eq_class {cs : List Char} {n : Nat} (hbs : cs.head? = some '\\')
    (hbe : beginEndLen cs = none) (hcm : commandLen cs = none)
    (hbc : backslashClassLen cs = some n) : matchLen cs = n := by
  have h1 : singleLen '\x7b' cs = none := by rw [singleLen, hbs]; decide
  have h2 : singleLen '\x7d' cs = none := by rw [singleLen, hbs]; decide
  have h3 : singleLen '[' cs = none := by rw [singleLen, hbs]; decide
  have h4 : singleLen ']' cs = none := by rw [singleLen, hbs]; decide
  rw [matchLen, hbe, hcm, h1, h2, h3, h4, hbc]
  simp

theorem head?_take {l : List Char} {n : Nat} (hn : n ≠ 0) : (l.take n).head? = l.head? := by
  cases l with
  | nil => simp
  | cons c cs =>
    cases n with
    | zero => exact absurd rfl hn
    | succ n => simp

/-- The key well-formedness fact: a match that starts with a backslash and
contains `{` does not end with `{`. -/
theorem matchLen_take_wf {cs : List Char} (hbs : cs.head? = some '\\')
    (hcont : '\x7b' ∈ cs.take (matchLen cs)) :
    ¬ (cs.take (matchLen cs)).getLast? = some '\x7b' := by
  cases hbe : beginEndLen cs with
  | some n =>
    rw [matchLen_eq_beginEnd hbe, beginEndLen_getLast hbe]
    decide
  | none =>
    cases hcm : commandLen cs with
    | some n =>
      rw [matchLen_eq_command hbe hcm]
      exact commandLen_getLast hcm
    | none =>
      have hbc : backslashClassLen cs =
          some (1 + countWhile (fun c => classChars.contains c) cs.tail) := by
        rw [backslashClassLen, if_pos hbs]
      rw [matchLen_eq_class hbs hbe hcm hbc] at hcont
      exact absurd hcont (backslashClassLen_no_brace hbc)

/-! ## Skip-freedom and recursive scan-completeness -/

/-- `true` iff the scan of `cs` matches at every position (no character is
skipped by `finditer`). -/
def noSkipsF : Nat → List Char → Bool
  | _, [] => true
  | 0, _ :: _ => false
  | fuel + 1, c :: rest =>
    if matchLen (c :: rest) = 0 then false
    else noSkipsF fuel ((c :: rest).drop (matchLen (c :: rest)))

def noSkips (cs : List Char) : Bool := noSkipsF cs.length cs

/-- Recursive scan-completeness: the scan of `content` skips no character,
every `structure`/`command` match containing `{` ends in `}` (ruling out the
`\cmd[x{y]z` degenerate split), and the same holds recursively for every
brace-argument interior handed to the nested expansion. -/
def scanOkF : Nat → List Char → Bool
  | 0, _ => false
  | fuel + 1, content =>
    noSkips content &&
      (scanChunks content 0).all fun sm =>
        if (get_token_type sm.2 = "structure" ∨ get_token_type sm.2 = "command") ∧
            sm.2.contains '\x7b' = true then
          decide (sm.2.getLast? = some '\x7d') &&
            scanOkF fuel ((sm.2.drop (sm.2.findIdx (fun d => d = '\x7b') + 1)).dropLast)
        else true

def scanOk (text : List Char) : Bool := scanOkF (text.length + 1) text

/-- Every top-level match containing a newline is a `newline`-typed token
(no newline hides inside an environment unit, a command argument or a
backslash-escape run, where the line counter would not be advanced). -/
def goodNlB (text : List Char) : Bool :=
  (scanChunks text 0).all fun sm =>
    ! sm.2.contains '\n' || decide (get_token_type sm.2 = "newline")

/-! ## Span predicates -/

/-- A match is scan-well-formed when, if it starts with a backslash and
contains `{`, it does not end with `{`. -/
def chunkWFB (m : List Char) : Bool :=
  ! (decide (m.head? = some '\\') && m.contains '\x7b' &&
     decide (m.getLast? = some '\x7b'))

/-- Chunks are in ascending order, nonempty, within `[lo, hi]`, and
scan-well-formed. -/
def chunksOkB : Nat → Nat → List (Nat × List Char) → Bool
  | _, _, [] => true
  | lo, hi, (s, m) :: r =>
    decide (lo ≤ s) && decide (m ≠ []) && decide (s + m.length ≤ hi) && chunkWFB m &&
      chunksOkB (s + m.length) hi r

/-- Chunks exactly tile `[lo, hi)`. -/
def chunksTileB : Nat → Nat → List (Nat × List Char) → Bool
  | lo, hi, [] => decide (lo = hi)
  | lo, hi, (s, m) :: r =>
    decide (s = lo) && decide (m ≠ []) && chunksTileB (lo + m.length) hi r

/-- Spans are in ascending order, non-overlapping, each nonempty and within
`[lo, hi]`. -/
def spansChainB : Nat → Nat → List (Nat × Nat) → Bool
  | _, _, [] => true
  | lo, hi, (s, e) :: r =>
    decide (lo ≤ s) && decide (s < e) && decide (e ≤ hi) && spansChainB e hi r

/-- Spans exactly tile `[lo, hi)`. -/
def spansTileB : Nat → Nat → List (Nat × Nat) → Bool
  | lo, hi, [] => decide (lo = hi)
  | lo, hi, (s, e) :: r => decide (s = lo) && decide (lo < e) && spansTileB e hi r

def toksSpans (ts : List Tok) : List (Nat × Nat) := ts.map fun t => (t.posStart, t.posEnd)

/-! ## Scan-level invariants -/

theorem contains_iff_mem {l : List Char} {a : Char} : l.contains a = true ↔ a ∈ l :=
  List.elem_iff

theorem chunkWFB_take_matchLen (cs : List Char) :
    chunkWFB (cs.take (matchLen cs)) = true := by
  rw [chunkWFB]
  by_cases hbs : (cs.take (matchLen cs)).head? = some '\\'
  · by_cases hct : '\x7b' ∈ cs.take (matchLen cs)
    · have hn0 : matchLen cs ≠ 0 := by
        intro h0
        rw [h0] at hbs
        simp at hbs
      have hbs' : cs.head? = some '\\' := by rw [← head?_take hn0]; exact hbs
      have hwf := matchLen_take_wf hbs' hct
      simp [hbs, hwf, contains_iff_mem, hct]
    · simp [contains_iff_mem]
      exact Or.inl (Or.inr hct)
  · simp [hbs]

theorem chunksOkB_mono_lo : ∀ {r : List (Nat × List Char)} {lo lo' hi : Nat},
    lo ≤ lo' → chunksOkB lo' hi r = true → chunksOkB lo hi r = true := by
  intro r
  induction r with
  | nil => intro lo lo' hi _ _; rfl
  | cons sm r _ =>
    intro lo lo' hi h hr
    rcases sm with ⟨s, m⟩
    rw [chunksOkB] at hr ⊢
    simp only [Bool.and_eq_true, decide_eq_true_eq] at hr ⊢
    obtain ⟨⟨⟨⟨h1, h2⟩, h3⟩, h4⟩, h5⟩ := hr
    exact ⟨⟨⟨⟨by omega, h2⟩, h3⟩, h4⟩, h5⟩

theorem scanAuxF_chunksOk : ∀ (fuel : Nat) (cs : List Char) (pos : Nat),
    cs.length ≤ fuel → chunksOkB pos (pos + cs.length) (scanAuxF fuel cs pos) = true := by
  intro fuel
  induction fuel with
  | zero =>
    intro cs pos hf
    have hnil : cs = [] := List.length_eq_zero.1 (by omega)
    subst hnil
    rfl
  | succ fuel ih =>
    intro cs pos hf
    cases cs with
    | nil => rfl
    | cons c rest =>
      simp only [scanAuxF]
      by_cases h0 : matchLen (c :: rest) = 0
      · rw [if_pos h0]
        apply chunksOkB_mono_lo (Nat.le_succ pos)
        have hlen : rest.length ≤ fuel := by
          simp only [List.length_cons] at hf
          omega
        have := ih rest (pos + 1) hlen
        rw [show pos + (c :: rest).length = (pos + 1) + rest.length from by
          simp only [List.length_cons]; omega]
        exact this
      · rw [if_neg h0]
        rw [chunksOkB]
        simp only [Bool.and_eq_true, decide_eq_true_eq]
        refine ⟨⟨⟨⟨Nat.le_refl pos, ?_⟩, ?_⟩, chunkWFB_take_matchLen (c :: rest)⟩, ?_⟩
        · simp only [ne_eq, List.take_eq_nil_iff]
          simp [h0]
        · have := List.length_take_le' (matchLen (c :: rest)) (c :: rest)
          omega
        · by_cases hle : matchLen (c :: rest) ≤ (c :: rest).length
          · rw [List.length_take_of_le hle]
            have hlen2 : ((c :: rest).drop (matchLen (c :: rest))).length ≤ fuel := by
              rw [List.length_drop]
              simp only [List.length_cons] at hf ⊢
              omega
            have ihr := ih ((c :: rest).drop (matchLen (c :: rest)))
              (pos + matchLen (c :: rest)) hlen2
            rw [show pos + (c :: rest).length =
                (pos + matchLen (c :: rest)) +
                  ((c :: rest).drop (matchLen (c :: rest))).length from by
              rw [List.length_drop]; omega]
            exact ihr
          · rw [List.drop_eq_nil_of_le (by omega)]
            simp [scanAuxF, chunksOkB]

theorem scanAuxF_tile : ∀ (fuel : Nat) (cs : List Char) (pos : Nat),
    cs.length ≤ fuel → noSkipsF fuel cs = true →
    chunksTileB pos (pos + cs.length) (scanAuxF fuel cs pos) = true := by
  intro fuel
  induction fuel with
  | zero =>
    intro cs pos hf _
    have hnil : cs = [] := List.length_eq_zero.1 (by omega)
    subst hnil
    simp [scanAuxF, chunksTileB]
  | succ fuel ih =>
    intro cs pos hf hns
    cases cs with
    | nil => simp [scanAuxF, chunksTileB]
    | cons c rest =>
      simp only [scanAuxF]
      simp only [noSkipsF] at hns
      by_cases h0 : matchLen (c :: rest) = 0
      · rw [if_pos h0] at hns
        exact absurd hns (by simp)
      · rw [if_neg h0] at hns
        rw [if_neg h0, chunksTileB]
        simp only [Bool.and_eq_true, decide_eq_true_eq, eq_self_iff_true]
        refine ⟨⟨trivial, ?_⟩, ?_⟩
        · simp only [ne_eq, List.take_eq_nil_iff]
          simp [h0]
        · by_cases hle : matchLen (c :: rest) ≤ (c :: rest).length
          · rw [List.length_take_of_le hle]
            have hlen2 : ((c :: rest).drop (matchLen (c :: rest))).length ≤ fuel := by
              rw [List.length_drop]
              simp only [List.length_cons] at hf ⊢
              omega
            have ihr := ih ((c :: rest).drop (matchLen (c :: rest)))
              (pos + matchLen (c :: rest)) hlen2 hns
            rw [show pos + (c :: rest).length =
                (pos + matchLen (c :: rest)) +
                  ((c :: rest).drop (matchLen (c :: rest))).length from by
              rw [List.length_drop]; omega]
            exact ihr
          · rw [List.length_take, Nat.min_eq_right (by omega),
              List.drop_eq_nil_of_le (by omega)]
            simp [scanAuxF, chunksTileB]

theorem scanAuxF_join : ∀ (fuel : Nat) (cs : List Char) (pos : Nat),
    cs.length ≤ fuel → noSkipsF fuel cs = true →
    ((scanAuxF fuel cs pos).map (fun sm => sm.2)).flatten = cs := by
  intro fuel
  induction fuel with
  | zero =>
    intro cs pos hf _
    have hnil : cs = [] := List.length_eq_zero.1 (by omega)
    subst hnil
    rfl
  | succ fuel ih =>
    intro cs pos hf hns
    cases cs with
    | nil => rfl
    | cons c rest =>
      simp only [scanAuxF]
      simp only [noSkipsF] at hns
      by_cases h0 : matchLen (c :: rest) = 0
      · rw [if_pos h0] at hns
        exact absurd hns (by simp)
      · rw [if_neg h0] at hns
        rw [if_neg h0]
        simp only [List.map_cons, List.flatten_cons]
        by_cases hle : matchLen (c :: rest) ≤ (c :: rest).length
        · have hlen2 : ((c :: rest).drop (matchLen (c :: rest))).length ≤ fuel := by
            rw [List.length_drop]
            simp only [List.length_cons] at hf ⊢
            omega
          rw [ih ((c :: rest).drop (matchLen (c :: rest))) (pos + matchLen (c :: rest))
            hlen2 hns]
          exact List.take_append_drop _ _
        · rw [List.drop_eq_nil_of_le (by omega)]
          simp only [scanAuxF, List.map_nil, List.flatten_nil, List.append_nil]
          exact List.take_of_length_le (by omega)

theorem scanAuxF_shift : ∀ (fuel : Nat) (cs : List Char) (pos k : Nat),
    scanAuxF fuel cs (pos + k) = (scanAuxF fuel cs pos).map (fun sm => (sm.1 + k, sm.2)) := by
  intro fuel
  induction fuel with
  | zero => intro cs pos k; cases cs <;> rfl
  | succ fuel ih =>
    intro cs pos k
    cases cs with
    | nil => rfl
    | cons c rest =>
      simp only [scanAuxF]
      by_cases h0 : matchLen (c :: rest) = 0
      · rw [if_pos h0, if_pos h0,
          show pos + k + 1 = (pos + 1) + k from by omega, ih]
      · rw [if_neg h0, if_neg h0, List.map_cons,
          show pos + k + matchLen (c :: rest) =
            (pos + matchLen (c :: rest)) + k from by omega, ih]

theorem scanAuxF_chars_mem : ∀ (fuel : Nat) (cs : List Char) (pos : Nat),
    ∀ sm ∈ scanAuxF fuel cs pos, ∀ c ∈ sm.2, c ∈ cs := by
  intro fuel
  induction fuel with
  | zero => intro cs pos sm hsm; cases cs <;> simp [scanAuxF] at hsm
  | succ fuel ih =>
    intro cs pos sm hsm c hc
    cases cs with
    | nil => simp [scanAuxF] at hsm
    | cons d rest =>
      simp only [scanAuxF] at hsm
      by_cases h0 : matchLen (d :: rest) = 0
      · rw [if_pos h0] at hsm
        exact List.mem_cons_of_mem d (ih rest (pos + 1) sm hsm c hc)
      · rw [if_neg h0] at hsm
        rcases List.mem_cons.1 hsm with rfl | hsm'
        · exact List.mem_of_mem_take hc
        · exact List.mem_of_mem_drop
            (ih ((d :: rest).drop (matchLen (d :: rest)))
              (pos + matchLen (d :: rest)) sm hsm' c hc)

/-! ## Facts about `get_token_type` and the expander's indices -/

theorem get_token_type_branches (t : List Char) :
    (get_token_type t = "newline" → t.contains '\n' = true) ∧
      (get_token_type t = "structure" → isStructureTok t = true) ∧
      (get_token_type t = "command" → is_latex_command t = true) := by
  rw [get_token_type]
  by_cases h1 : isEnvTok t = true
  · rw [if_pos h1]
    refine ⟨?_, ?_, ?_⟩ <;> intro h <;> exact absurd h (by decide)
  · rw [if_neg h1]
    by_cases h2 : isStructureTok t = true
    · rw [if_pos h2]
      exact ⟨fun h => absurd h (by decide), fun _ => h2, fun h => absurd h (by decide)⟩
    · rw [if_neg h2]
      by_cases h3 : isDefineTok t = true
      · rw [if_pos h3]
        refine ⟨?_, ?_, ?_⟩ <;> intro h <;> exact absurd h (by decide)
      · rw [if_neg h3]
        by_cases h4 : is_latex_command t = true
        · rw [if_pos h4]
          exact ⟨fun h => absurd h (by decide), fun h => absurd h (by decide), fun _ => h4⟩
        · rw [if_neg h4]
          by_cases h5 : isBracketTok t = true
          · rw [if_pos h5]
            refine ⟨?_, ?_, ?_⟩ <;> intro h <;> exact absurd h (by decide)
          · rw [if_neg h5]
            by_cases h6 : isMathTok t = true
            · rw [if_pos h6]
              refine ⟨?_, ?_, ?_⟩ <;> intro h <;> exact absurd h (by decide)
            · rw [if_neg h6]
              by_cases h7 : isTableSepTok t = true
              · rw [if_pos h7]
                refine ⟨?_, ?_, ?_⟩ <;> intro h <;> exact absurd h (by decide)
              · rw [if_neg h7]
                by_cases h8 : isCommentTok t = true
                · rw [if_pos h8]
                  refine ⟨?_, ?_, ?_⟩ <;> intro h <;> exact absurd h (by decide)
                · rw [if_neg h8]
                  by_cases h9 : isSpaceTok t = true
                  · rw [if_pos h9]
                    by_cases hn : t.contains '\n' = true
                    · rw [if_pos hn]
                      exact ⟨fun _ => hn, fun h => absurd h (by decide), fun h => absurd h (by decide)⟩
                    · rw [if_neg hn]
                      refine ⟨?_, ?_, ?_⟩ <;> intro h <;> exact absurd h (by decide)
                  · rw [if_neg h9]
                    by_cases h10 : is_filepath_or_filename t = true
                    · rw [if_pos h10]
                      refine ⟨?_, ?_, ?_⟩ <;> intro h <;> exact absurd h (by decide)
                    · rw [if_neg h10]
                      by_cases h11 : isReferenceTok t = true
                      · rw [if_pos h11]
                        refine ⟨?_, ?_, ?_⟩ <;> intro h <;> exact absurd h (by decide)
                      · rw [if_neg h11]
                        by_cases h12 : is_punctuation t = true
                        · rw [if_pos h12]
                          refine ⟨?_, ?_, ?_⟩ <;> intro h <;> exact absurd h (by decide)
                        · rw [if_neg h12]
                          by_cases h13 : (! (pyStrip t).isEmpty) = true
                          · rw [if_pos h13]
                            refine ⟨?_, ?_, ?_⟩ <;> intro h <;> exact absurd h (by decide)
                          · rw [if_neg h13]
                            refine ⟨?_, ?_, ?_⟩ <;> intro h <;> exact absurd h (by decide)

theorem get_token_type_newline_contains {m : List Char}
    (h : get_token_type m = "newline") : m.contains '\n' = true :=
  (get_token_type_branches m).1 h

theorem get_token_type_structure_starts {m : List Char}
    (h : get_token_type m = "structure") : isStructureTok m = true :=
  (get_token_type_branches m).2.1 h

theorem get_token_type_command_latex {m : List Char}
    (h : get_token_type m = "command") : is_latex_command m = true :=
  (get_token_type_branches m).2.2 h

theorem get_token_type_head_backslash {m : List Char}
    (h : get_token_type m = "structure" ∨ get_token_type m = "command") :
    m.head? = some '\\' := by
  have hsplit : isStructureTok m = true ∨ is_latex_command m = true := by
    rcases h with h | h
    · exact Or.inl (get_token_type_structure_starts h)
    · exact Or.inr (get_token_type_command_latex h)
  rcases hsplit with hc | hc
  · rw [isStructureTok, List.any_eq_true] at hc
    obtain ⟨p, hp, hpre⟩ := hc
    rw [List.isPrefixOf_iff_prefix] at hpre
    obtain ⟨t2, rfl⟩ := hpre
    simp only [structurePrefixes, List.mem_cons, List.not_mem_nil, or_false] at hp
    rcases hp with rfl | rfl | rfl | rfl | rfl | rfl | rfl | rfl | rfl <;> rfl
  · rw [is_latex_command] at hc
    simp only [Bool.and_eq_true] at hc
    have hpre := hc.1.1
    rw [List.isPrefixOf_iff_prefix] at hpre
    obtain ⟨t2, rfl⟩ := hpre
    rfl

theorem findIdx_brace_facts {m : List Char} (hbs : m.head? = some '\\')
    (hct : m.contains '\x7b' = true) :
    1 ≤ m.findIdx (fun d => d = '\x7b') ∧
      m.findIdx (fun d => d = '\x7b') < m.length ∧
      m[m.findIdx (fun d => d = '\x7b')]? = some '\x7b' := by
  have hex : ∃ x ∈ m, (fun d => decide (d = '\x7b')) x = true :=
    ⟨'\x7b', contains_iff_mem.1 hct, by simp⟩
  have hlt : m.findIdx (fun d => d = '\x7b') < m.length :=
    List.findIdx_lt_length_of_exists hex
  refine ⟨?_, hlt, ?_⟩
  · obtain ⟨t, rfl⟩ : ∃ t, m = '\\' :: t := ⟨m.tail, eq_cons_of_head? hbs⟩
    rw [List.findIdx_cons]
    simp
  · have := @List.findIdx_getElem _ (fun d => d = '\x7b') m hlt
    simp only [decide_eq_true_eq] at this
    rw [List.getElem?_eq_getElem hlt, this]

theorem getLast_ne_findIdx_last {m : List Char} (hbs : m.head? = some '\\')
    (hct : m.contains '\x7b' = true)
    (hlast : ¬ m.getLast? = some '\x7b') :
    m.findIdx (fun d => d = '\x7b') + 2 ≤ m.length := by
  obtain ⟨h1, hlt, hget⟩ := findIdx_brace_facts hbs hct
  by_cases heq : m.findIdx (fun d => d = '\x7b') = m.length - 1
  · exfalso
    apply hlast
    rw [List.getLast?_eq_getElem?, ← heq]
    exact hget
  · omega

/-- Decomposition of a split `structure`/`command` match around its first
`{` and final `}`. -/
theorem split_decomp {m : List Char} (hlt : m.findIdx (fun d => d = '\x7b') < m.length)
    (hget : m[m.findIdx (fun d => d = '\x7b')]? = some '\x7b')
    (hce2 : m.findIdx (fun d => d = '\x7b') + 2 ≤ m.length)
    (hlast : m.getLast? = some '\x7d') :
    m = m.take (m.findIdx (fun d => d = '\x7b')) ++ '\x7b' ::
      ((m.drop (m.findIdx (fun d => d = '\x7b') + 1)).dropLast ++ ['\x7d']) := by
  have hdropne : m.drop (m.findIdx (fun d => d = '\x7b') + 1) ≠ [] := by
    rw [ne_eq, List.drop_eq_nil_iff]
    omega
  have hlast2 : (m.drop (m.findIdx (fun d => d = '\x7b') + 1)).getLast? = some '\x7d' := by
    rw [List.getLast?_eq_getElem?, List.getElem?_drop, List.length_drop,
      show m.findIdx (fun d => d = '\x7b') + 1 + (m.length -
        (m.findIdx (fun d => d = '\x7b') + 1) - 1) = m.length - 1 from by omega]
    rw [List.getLast?_eq_getElem?] at hlast
    exact hlast
  have hconcat : (m.drop (m.findIdx (fun d => d = '\x7b') + 1)).dropLast ++ ['\x7d'] =
      m.drop (m.findIdx (fun d => d = '\x7b') + 1) := by
    obtain ⟨hne, heq⟩ := List.mem_getLast?_eq_getLast
      (show '\x7d' ∈ (m.drop (m.findIdx (fun d => d = '\x7b') + 1)).getLast? from
        Option.mem_def.2 hlast2)
    rw [heq]
    exact List.dropLast_concat_getLast hne
  rw [hconcat]
  have hdrop : m.drop (m.findIdx (fun d => d = '\x7b')) =
      '\x7b' :: m.drop (m.findIdx (fun d => d = '\x7b') + 1) := by
    rw [List.drop_eq_getElem_cons hlt]
    congr 1
    rw [List.getElem?_eq_getElem hlt] at hget
    injection hget
  rw [← hdrop]
  exact (List.take_append_drop _ _).symm

/-! ## The span chain invariant of `tokenize_content` -/

theorem toksSpans_append (a b : List Tok) : toksSpans (a ++ b) = toksSpans a ++ toksSpans b :=
  List.map_append _ a b

theorem spansChainB_mono_lo : ∀ {r : List (Nat × Nat)} {lo lo' hi : Nat},
    lo ≤ lo' → spansChainB lo' hi r = true → spansChainB lo hi r = true := by
  intro r
  cases r with
  | nil => intro lo lo' hi _ _; rfl
  | cons se r =>
    intro lo lo' hi h hr
    rcases se with ⟨s, e⟩
    rw [spansChainB] at hr ⊢
    simp only [Bool.and_eq_true, decide_eq_true_eq] at hr ⊢
    obtain ⟨⟨⟨h1, h2⟩, h3⟩, h4⟩ := hr
    exact ⟨⟨⟨by omega, h2⟩, h3⟩, h4⟩

theorem spansChainB_append : ∀ {A B : List (Nat × Nat)} {lo mid hi : Nat},
    lo ≤ mid → mid ≤ hi → spansChainB lo mid A = true → spansChainB mid hi B = true →
    spansChainB lo hi (A ++ B) = true := by
  intro A
  induction A with
  | nil =>
    intro B lo mid hi hlm _ _ hB
    exact spansChainB_mono_lo hlm hB
  | cons se A ih =>
    intro B lo mid hi hlm hmh hA hB
    rcases se with ⟨s, e⟩
    rw [List.cons_append, spansChainB]
    rw [spansChainB] at hA
    simp only [Bool.and_eq_true, decide_eq_true_eq] at hA ⊢
    obtain ⟨⟨⟨h1, h2⟩, h3⟩, h4⟩ := hA
    exact ⟨⟨⟨h1, h2⟩, by omega⟩, ih (by omega) hmh h4 hB⟩

theorem spansChainB_single {s e hi : Nat} (h1 : s < e) (h2 : e ≤ hi) :
    spansChainB s hi [(s, e)] = true := by
  rw [spansChainB, spansChainB]
  simp only [Bool.and_eq_true, decide_eq_true_eq]
  exact ⟨⟨⟨Nat.le_refl s, h1⟩, h2⟩, trivial⟩

theorem chunkWFB_getLast {m : List Char} (hwf : chunkWFB m = true)
    (hbs : m.head? = some '\\') (hct : m.contains '\x7b' = true) :
    ¬ m.getLast? = some '\x7b' := by
  intro hlast
  rw [chunkWFB] at hwf
  simp [hbs, hlast] at hwf
  exact hwf (contains_iff_mem.1 hct)

theorem toksSpans_single (ty : String) (v : List Char) (line s e : Nat) :
    toksSpans [mkTok ty v line s e] = [(s, e)] := rfl

theorem toksSpans_pair (ty1 ty2 : String) (v1 v2 : List Char) (l1 l2 s1 e1 s2 e2 : Nat) :
    toksSpans [mkTok ty1 v1 l1 s1 e1, mkTok ty2 v2 l2 s2 e2] = [(s1, e1), (s2, e2)] := rfl

theorem emitOne_chain (fuel : Nat)
    (ih : ∀ (content : List Char) (line start : Nat), content.length < fuel →
      spansChainB start (start + content.length)
        (toksSpans (tokenize_contentF fuel content line start)) = true)
    (s : Nat) (m : List Char) (line : Nat) (hm : m ≠ []) (hwf : chunkWFB m = true)
    (hfuel : m.length ≤ fuel) :
    spansChainB s (s + m.length)
      (toksSpans (emitOneWith (fun inner l st => tokenize_contentF fuel inner l st)
        s m line)) = true := by
  have hmlen : 0 < m.length := List.length_pos.2 hm
  rw [emitOneWith]
  by_cases hty1 : get_token_type m = "environment"
  · rw [if_pos hty1, toksSpans_single]
    exact spansChainB_single (by omega) (Nat.le_refl _)
  · rw [if_neg hty1]
    by_cases hty2 : get_token_type m = "structure" ∨ get_token_type m = "command"
    · rw [if_pos hty2]
      by_cases hct : m.contains '\x7b' = true
      · rw [if_pos hct]
        have hbs := get_token_type_head_backslash hty2
        obtain ⟨hce1, hcelt, hceget⟩ := findIdx_brace_facts hbs hct
        have hce2 : m.findIdx (fun d => d = '\x7b') + 2 ≤ m.length :=
          getLast_ne_findIdx_last hbs hct (chunkWFB_getLast hwf hbs hct)
        have hinner_len : ((m.drop (m.findIdx (fun d => d = '\x7b') + 1)).dropLast).length =
            m.length - m.findIdx (fun d => d = '\x7b') - 2 := by
          rw [List.length_dropLast, List.length_drop]
          omega
        have hinner := ih ((m.drop (m.findIdx (fun d => d = '\x7b') + 1)).dropLast) line
          (s + m.findIdx (fun d => d = '\x7b') + 1) (by omega)
        rw [toksSpans_append, toksSpans_append, toksSpans_pair, toksSpans_single,
          List.append_assoc, List.cons_append, List.cons_append, List.nil_append]
        rw [spansChainB]
        simp only [Bool.and_eq_true, decide_eq_true_eq]
        refine ⟨⟨⟨Nat.le_refl s, by omega⟩, by omega⟩, ?_⟩
        rw [spansChainB]
        simp only [Bool.and_eq_true, decide_eq_true_eq]
        refine ⟨⟨⟨by omega, by omega⟩, by omega⟩, ?_⟩
        apply spansChainB_append
          (show s + m.findIdx (fun d => d = '\x7b') + 1 ≤
            (s + m.findIdx (fun d => d = '\x7b') + 1) +
              ((m.drop (m.findIdx (fun d => d = '\x7b') + 1)).dropLast).length from by omega)
          (show (s + m.findIdx (fun d => d = '\x7b') + 1) +
              ((m.drop (m.findIdx (fun d => d = '\x7b') + 1)).dropLast).length ≤
              s + m.length from by rw [hinner_len]; omega) hinner
        exact spansChainB_mono_lo
          (show (s + m.findIdx (fun d => d = '\x7b') + 1) +
              ((m.drop (m.findIdx (fun d => d = '\x7b') + 1)).dropLast).length ≤
              s + m.length - 1 from by rw [hinner_len]; omega)
          (spansChainB_single (show s + m.length - 1 < s + m.length from by omega)
            (Nat.le_refl _))
      · rw [if_neg hct, toksSpans_single]
        exact spansChainB_single (by omega) (Nat.le_refl _)
    · rw [if_neg hty2, toksSpans_single]
      exact spansChainB_single (by omega) (Nat.le_refl _)

theorem emitAll_chain (fuel : Nat)
    (ih : ∀ (content : List Char) (line start : Nat), content.length < fuel →
      spansChainB start (start + content.length)
        (toksSpans (tokenize_contentF fuel content line start)) = true) :
    ∀ (chunks : List (Nat × List Char)) (lo hi line : Nat),
      chunksOkB lo hi chunks = true → hi ≤ lo + fuel →
      spansChainB lo hi
        (toksSpans (emitAllWith (fun inner l st => tokenize_contentF fuel inner l st)
          chunks line)) = true := by
  intro chunks
  induction chunks with
  | nil => intro lo hi line _ _; rfl
  | cons sm rest ihc =>
    intro lo hi line hok hB
    rcases sm with ⟨s, m⟩
    rw [chunksOkB] at hok
    simp only [Bool.and_eq_true, decide_eq_true_eq] at hok
    obtain ⟨⟨⟨⟨h1, h2⟩, h3⟩, h4⟩, h5⟩ := hok
    rw [emitAllWith, toksSpans_append]
    apply spansChainB_append (show lo ≤ s + m.length from by omega) h3
    · exact spansChainB_mono_lo h1 (emitOne_chain fuel ih s m line h2 h4 (by omega))
    · exact ihc (s + m.length) hi _ h5 (by omega)

theorem tokenize_contentF_chain : ∀ (fuel : Nat) (content : List Char) (line start : Nat),
    content.length < fuel →
    spansChainB start (start + content.length)
      (toksSpans (tokenize_contentF fuel content line start)) = true := by
  intro fuel
  induction fuel with
  | zero => intro content line start h; omega
  | succ fuel ih =>
    intro content line start h
    rw [tokenize_contentF]
    exact emitAll_chain fuel ih (scanChunks content start) start
      (start + content.length) line
      (scanAuxF_chunksOk content.length content start (Nat.le_refl _))
      (by omega)

/-! ## The tiling invariant and exact detokenization under `scanOk` -/

theorem spansTileB_append : ∀ {A B : List (Nat × Nat)} {lo mid hi : Nat},
    spansTileB lo mid A = true → spansTileB mid hi B = true →
    spansTileB lo hi (A ++ B) = true := by
  intro A
  induction A with
  | nil =>
    intro B lo mid hi hA hB
    rw [spansTileB] at hA
    simp only [decide_eq_true_eq] at hA
    rw [hA]
    exact hB
  | cons se A ih =>
    intro B lo mid hi hA hB
    rcases se with ⟨s, e⟩
    rw [List.cons_append, spansTileB]
    rw [spansTileB] at hA
    simp only [Bool.and_eq_true, decide_eq_true_eq] at hA ⊢
    obtain ⟨⟨h1, h2⟩, h3⟩ := hA
    exact ⟨⟨h1, h2⟩, ih h3 hB⟩

theorem spansTileB_single {s e lo hi : Nat} (h1 : s = lo) (h2 : lo < e) (h3 : e = hi) :
    spansTileB lo hi [(s, e)] = true := by
  rw [spansTileB, spansTileB]
  simp only [Bool.and_eq_true, decide_eq_true_eq]
  exact ⟨⟨h1, h2⟩, h3⟩

theorem chunksTileB_le : ∀ {c : List (Nat × List Char)} {lo hi : Nat},
    chunksTileB lo hi c = true → lo ≤ hi := by
  intro c
  induction c with
  | nil =>
    intro lo hi h
    rw [chunksTileB] at h
    simp only [decide_eq_true_eq] at h
    omega
  | cons sm r ih =>
    intro lo hi h
    rcases sm with ⟨s, m⟩
    rw [chunksTileB] at h
    simp only [Bool.and_eq_true, decide_eq_true_eq] at h
    have := ih h.2
    omega

/-- The per-chunk side condition recorded by `scanOkF`. -/
def chunkCondB (fuel : Nat) (m : List Char) : Bool :=
  if (get_token_type m = "structure" ∨ get_token_type m = "command") ∧
      m.contains '\x7b' = true then
    decide (m.getLast? = some '\x7d') &&
      scanOkF fuel ((m.drop (m.findIdx (fun d => d = '\x7b') + 1)).dropLast)
  else true

theorem scanOkF_destruct {fuel : Nat} {content : List Char}
    (h : scanOkF (fuel + 1) content = true) :
    noSkips content = true ∧
      ((scanChunks content 0).all fun sm => chunkCondB fuel sm.2) = true := by
  rw [scanOkF] at h
  simp only [Bool.and_eq_true] at h
  exact ⟨h.1, h.2⟩

theorem emitOne_tile (fuel : Nat)
    (ih : ∀ (content : List Char) (line start : Nat), content.length < fuel →
      scanOkF fuel content = true →
      spansTileB start (start + content.length)
        (toksSpans (tokenize_contentF fuel content line start)) = true)
    (s : Nat) (m : List Char) (line : Nat) (hm : m ≠ [])
    (hcond : chunkCondB fuel m = true) (hfuel : m.length ≤ fuel) :
    spansTileB s (s + m.length)
      (toksSpans (emitOneWith (fun inner l st => tokenize_contentF fuel inner l st)
        s m line)) = true := by
  have hmlen : 0 < m.length := List.length_pos.2 hm
  rw [emitOneWith]
  by_cases hty1 : get_token_type m = "environment"
  · rw [if_pos hty1, toksSpans_single]
    exact spansTileB_single rfl (by omega) rfl
  · rw [if_neg hty1]
    by_cases hty2 : get_token_type m = "structure" ∨ get_token_type m = "command"
    · rw [if_pos hty2]
      by_cases hct : m.contains '\x7b' = true
      · rw [if_pos hct]
        rw [chunkCondB, if_pos ⟨hty2, hct⟩] at hcond
        simp only [Bool.and_eq_true, decide_eq_true_eq] at hcond
        obtain ⟨hlast, hinner_ok⟩ := hcond
        have hbs := get_token_type_head_backslash hty2
        obtain ⟨hce1, hcelt, hceget⟩ := findIdx_brace_facts hbs hct
        have hce2 : m.findIdx (fun d => d = '\x7b') + 2 ≤ m.length := by
          apply getLast_ne_findIdx_last hbs hct
          rw [hlast]
          decide
        have hinner_len : ((m.drop (m.findIdx (fun d => d = '\x7b') + 1)).dropLast).length =
            m.length - m.findIdx (fun d => d = '\x7b') - 2 := by
          rw [List.length_dropLast, List.length_drop]
          omega
        have hinner := ih ((m.drop (m.findIdx (fun d => d = '\x7b') + 1)).dropLast) line
          (s + m.findIdx (fun d => d = '\x7b') + 1) (by omega) hinner_ok
        rw [toksSpans_append, toksSpans_append, toksSpans_pair, toksSpans_single,
          List.append_assoc, List.cons_append, List.cons_append, List.nil_append]
        rw [spansTileB]
        simp only [Bool.and_eq_true, decide_eq_true_eq]
        refine ⟨⟨by trivial, by omega⟩, ?_⟩
        rw [spansTileB]
        simp only [Bool.and_eq_true, decide_eq_true_eq]
        refine ⟨⟨by trivial, by omega⟩, ?_⟩
        apply spansTileB_append hinner
        exact spansTileB_single (by rw [hinner_len]; omega) (by omega) rfl
      · rw [if_neg hct, toksSpans_single]
        exact spansTileB_single rfl (by omega) rfl
    · rw [if_neg hty2, toksSpans_single]
      exact spansTileB_single rfl (by omega) rfl

theorem emitAll_tile (fuel : Nat)
    (ih : ∀ (content : List Char) (line start : Nat), content.length < fuel →
      scanOkF fuel content = true →
      spansTileB start (start + content.length)
        (toksSpans (tokenize_contentF fuel content line start)) = true) :
    ∀ (chunks : List (Nat × List Char)) (lo hi line : Nat),
      chunksTileB lo hi chunks = true →
      (chunks.all fun sm => chunkCondB fuel sm.2) = true → hi ≤ lo + fuel →
      spansTileB lo hi
        (toksSpans (emitAllWith (fun inner l st => tokenize_contentF fuel inner l st)
          chunks line)) = true := by
  intro chunks
  induction chunks with
  | nil =>
    intro lo hi line htile _ _
    exact htile
  | cons sm rest ihc =>
    intro lo hi line htile hall hB
    rcases sm with ⟨s, m⟩
    rw [chunksTileB] at htile
    simp only [Bool.and_eq_true, decide_eq_true_eq] at htile
    obtain ⟨⟨h1, h2⟩, h3⟩ := htile
    rw [List.all_cons, Bool.and_eq_true] at hall
    obtain ⟨hc1, hcrest⟩ := hall
    have hmhi : lo + m.length ≤ hi := chunksTileB_le h3
    rw [emitAllWith, toksSpans_append]
    subst h1
    apply spansTileB_append
    · exact emitOne_tile fuel ih s m line h2 hc1 (by omega)
    · exact ihc (s + m.length) hi _ h3 hcrest (by omega)

theorem tokenize_contentF_tile : ∀ (fuel : Nat) (content : List Char) (line start : Nat),
    content.length < fuel → scanOkF fuel content = true →
    spansTileB start (start + content.length)
      (toksSpans (tokenize_contentF fuel content line start)) = true := by
  intro fuel
  induction fuel with
  | zero => intro content line start h; omega
  | succ fuel ih =>
    intro content line start h hok
    obtain ⟨hns, hall⟩ := scanOkF_destruct hok
    have hshift : scanChunks content start =
        (scanChunks content 0).map (fun sm => (sm.1 + start, sm.2)) := by
      rw [scanChunks, scanChunks, ← scanAuxF_shift, Nat.zero_add]
    have hall' : ((scanChunks content start).all fun sm => chunkCondB fuel sm.2) = true := by
      rw [hshift, List.all_map]
      exact hall
    rw [tokenize_contentF]
    exact emitAll_tile fuel ih (scanChunks content start) start
      (start + content.length) line
      (scanAuxF_tile content.length content start (Nat.le_refl _) hns)
      hall' (by omega)

theorem detok_append (a b : List Tok) :
    detokenize_latex (a ++ b) = detokenize_latex a ++ detokenize_latex b := by
  rw [detokenize_latex, detokenize_latex, detokenize_latex, List.map_append,
    List.flatten_append]

theorem detok_single (ty : String) (v : List Char) (line s e : Nat) :
    detokenize_latex [mkTok ty v line s e] = v := by
  simp [detokenize_latex, mkTok]

theorem detok_pair (ty1 ty2 : String) (v1 v2 : List Char) (l1 l2 s1 e1 s2 e2 : Nat) :
    detokenize_latex [mkTok ty1 v1 l1 s1 e1, mkTok ty2 v2 l2 s2 e2] = v1 ++ v2 := by
  simp [detokenize_latex, mkTok]

theorem emitOne_detok (fuel : Nat)
    (ih : ∀ (content : List Char) (line start : Nat), content.length < fuel →
      scanOkF fuel content = true →
      detokenize_latex (tokenize_contentF fuel content line start) = content)
    (s : Nat) (m : List Char) (line : Nat) (hm : m ≠ [])
    (hcond : chunkCondB fuel m = true) (hfuel : m.length ≤ fuel) :
    detokenize_latex (emitOneWith (fun inner l st => tokenize_contentF fuel inner l st)
      s m line) = m := by
  have hmlen : 0 < m.length := List.length_pos.2 hm
  rw [emitOneWith]
  by_cases hty1 : get_token_type m = "environment"
  · rw [if_pos hty1, detok_single]
  · rw [if_neg hty1]
    by_cases hty2 : get_token_type m = "structure" ∨ get_token_type m = "command"
    · rw [if_pos hty2]
      by_cases hct : m.contains '\x7b' = true
      · rw [if_pos hct]
        rw [chunkCondB, if_pos ⟨hty2, hct⟩] at hcond
        simp only [Bool.and_eq_true, decide_eq_true_eq] at hcond
        obtain ⟨hlast, hinner_ok⟩ := hcond
        have hbs := get_token_type_head_backslash hty2
        obtain ⟨hce1, hcelt, hceget⟩ := findIdx_brace_facts hbs hct
        have hce2 : m.findIdx (fun d => d = '\x7b') + 2 ≤ m.length := by
          apply getLast_ne_findIdx_last hbs hct
          rw [hlast]
          decide
        have hinner_len : ((m.drop (m.findIdx (fun d => d = '\x7b') + 1)).dropLast).length =
            m.length - m.findIdx (fun d => d = '\x7b') - 2 := by
          rw [List.length_dropLast, List.length_drop]
          omega
        have hinner := ih ((m.drop (m.findIdx (fun d => d = '\x7b') + 1)).dropLast) line
          (s + m.findIdx (fun d => d = '\x7b') + 1) (by omega) hinner_ok
        rw [detok_append, detok_append, detok_pair, detok_single, hinner]
        conv_rhs => rw [split_decomp hcelt hceget hce2 hlast]
        simp [List.append_assoc]
      · rw [if_neg hct, detok_single]
    · rw [if_neg hty2, detok_single]

theorem emitAll_detok (fuel : Nat)
    (ih : ∀ (content : List Char) (line start : Nat), content.length < fuel →
      scanOkF fuel content = true →
      detokenize_latex (tokenize_contentF fuel content line start) = content) :
    ∀ (chunks : List (Nat × List Char)) (lo hi line : Nat),
      chunksTileB lo hi chunks = true →
      (chunks.all fun sm => chunkCondB fuel sm.2) = true → hi ≤ lo + fuel →
      detokenize_latex (emitAllWith (fun inner l st => tokenize_contentF fuel inner l st)
        chunks line) = (chunks.map fun sm => sm.2).flatten := by
  intro chunks
  induction chunks with
  | nil => intro lo hi line _ _ _; rfl
  | cons sm rest ihc =>
    intro lo hi line htile hall hB
    rcases sm with ⟨s, m⟩
    rw [chunksTileB] at htile
    simp only [Bool.and_eq_true, decide_eq_true_eq] at htile
    obtain ⟨⟨h1, h2⟩, h3⟩ := htile
    rw [List.all_cons, Bool.and_eq_true] at hall
    obtain ⟨hc1, hcrest⟩ := hall
    have hmhi : lo + m.length ≤ hi := chunksTileB_le h3
    rw [emitAllWith, detok_append, List.map_cons, List.flatten_cons]
    rw [emitOne_detok fuel ih s m line h2 hc1 (by omega)]
    rw [ihc (lo + m.length) hi _ h3 hcrest (by omega)]

theorem tokenize_contentF_detok : ∀ (fuel : Nat) (content : List Char) (line start : Nat),
    content.length < fuel → scanOkF fuel content = true →
    detokenize_latex (tokenize_contentF fuel content line start) = content := by
  intro fuel
  induction fuel with
  | zero => intro content line start h; omega
  | succ fuel ih =>
    intro content line start h hok
    obtain ⟨hns, hall⟩ := scanOkF_destruct hok
    have hshift : scanChunks content start =
        (scanChunks content 0).map (fun sm => (sm.1 + start, sm.2)) := by
      rw [scanChunks, scanChunks, ← scanAuxF_shift, Nat.zero_add]
    have hall' : ((scanChunks content start).all fun sm => chunkCondB fuel sm.2) = true := by
      rw [hshift, List.all_map]
      exact hall
    rw [tokenize_contentF]
    rw [emitAll_detok fuel ih (scanChunks content start) start
      (start + content.length) line
      (scanAuxF_tile content.length content start (Nat.le_refl _) hns)
      hall' (by omega)]
    exact scanAuxF_join content.length content start (Nat.le_refl _) hns

/-! ## `stampBlocks` only rewrites the `block` field -/

theorem stampBlocks_map {α : Type} (f : Tok → α)
    (hf : ∀ (t : Tok) (b : Nat), f { t with block := b } = f t) :
    ∀ (ts : List Tok) (stack : List Nat) (cb : Nat),
      (stampBlocks ts stack cb).map f = ts.map f := by
  intro ts
  induction ts with
  | nil => intro stack cb; rfl
  | cons t rest ih =>
    intro stack cb
    rw [stampBlocks]
    by_cases h1 : (t.ty = "structure" ∨ t.ty = "environment") ∧
        ("\\begin").toList.isPrefixOf t.value
    · rw [if_pos h1, List.map_cons, List.map_cons, hf, ih]
    · rw [if_neg h1]
      by_cases h2 : t.ty = "environment" ∧ ("\\end").toList.isPrefixOf t.value ∧
          1 < stack.length
      · rw [if_pos h2, List.map_cons, List.map_cons, hf, ih]
      · rw [if_neg h2, List.map_cons, List.map_cons, hf, ih]

theorem spansChainB_mem : ∀ {spans : List (Nat × Nat)} {lo hi : Nat} {p : Nat × Nat},
    spansChainB lo hi spans = true → p ∈ spans → lo ≤ p.1 ∧ p.1 < p.2 ∧ p.2 ≤ hi := by
  intro spans
  induction spans with
  | nil => intro lo hi p _ hp; cases hp
  | cons se r ih =>
    intro lo hi p hchain hp
    rcases se with ⟨s, e⟩
    rw [spansChainB] at hchain
    simp only [Bool.and_eq_true, decide_eq_true_eq] at hchain
    obtain ⟨⟨⟨h1, h2⟩, h3⟩, h4⟩ := hchain
    rcases List.mem_cons.1 hp with hp | hp
    · subst hp
      exact ⟨h1, h2, h3⟩
    · have := ih h4 hp
      exact ⟨by omega, this.2.1, this.2.2⟩

theorem mem_toksSpans {t : Tok} {ts : List Tok} (h : t ∈ ts) :
    (t.posStart, t.posEnd) ∈ toksSpans ts :=
  List.mem_map_of_mem _ h

theorem toksSpans_tokenize_latex (text : List Char) :
    toksSpans (tokenize_latex text) = toksSpans (tokenize_content text 1 0) := by
  rw [tokenize_latex, toksSpans,
    stampBlocks_map (fun u => (u.posStart, u.posEnd)) (fun u b => rfl)]
  rfl

theorem tokenize_latex_chain (text : List Char) :
    spansChainB 0 text.length (toksSpans (tokenize_latex text)) = true := by
  rw [toksSpans_tokenize_latex]
  have := tokenize_contentF_chain (text.length + 1) text 1 0 (by omega)
  rwa [Nat.zero_add] at this

/-! ## Claims C1, C2 (amended): round trip and span partition under `scanOk` -/

/-- **C1** (amended): whenever the scan is lossless — no character is
skipped and every `structure`/`command` match carrying a `{` ends in `}`,
recursively through the brace arguments (`scanOk`) — detokenization of the
tokenized stream reproduces the input exactly:
`detokenize_latex (tokenize_latex text) = text`.  (Unconditionally the
round trip can drop characters, see the `$` counterexample.) -/
theorem c1_round_trip_exact (text : List Char) (h : scanOk text = true) :
    detokenize_latex (tokenize_latex text) = text := by
  rw [tokenize_latex, detokenize_latex,
    stampBlocks_map Tok.value (fun u b => rfl)]
  exact tokenize_contentF_detok (text.length + 1) text 1 0 (by omega) h

theorem c1_round_trip_exact_witness :
    scanOk (("\\emph\x7bx\x7d hi").toList) = true ∧
      detokenize_latex (tokenize_latex (("\\emph\x7bx\x7d hi").toList)) =
        ("\\emph\x7bx\x7d hi").toList :=
  ⟨by decide, c1_round_trip_exact _ (by decide)⟩

/-- **C2** (amended): for every input the pre-consolidation token spans are
ascending, non-overlapping and contained in `[0, len text)`; when the scan
is lossless (`scanOk`) they moreover exactly tile `[0, len text)`, i.e.
their union is the full character range.  (Unconditionally the union can be
a strict subset, see the `$` counterexample.) -/
theorem c2_span_partition (text : List Char) :
    spansChainB 0 text.length (toksSpans (tokenize_latex text)) = true ∧
      (scanOk text = true →
        spansTileB 0 text.length (toksSpans (tokenize_latex text)) = true) := by
  constructor
  · exact tokenize_latex_chain text
  · intro h
    rw [toksSpans_tokenize_latex]
    have := tokenize_contentF_tile (text.length + 1) text 1 0 (by omega) h
    rwa [Nat.zero_add] at this

theorem c2_span_partition_witness :
    scanOk (("\\emph\x7bab\x7d x").toList) = true ∧
      spansChainB 0 (("\\emph\x7bab\x7d x").toList).length
        (toksSpans (tokenize_latex (("\\emph\x7bab\x7d x").toList))) = true ∧
      spansTileB 0 (("\\emph\x7bab\x7d x").toList).length
        (toksSpans (tokenize_latex (("\\emph\x7bab\x7d x").toList))) = true :=
  ⟨by decide, (c2_span_partition _).1, (c2_span_partition _).2 (by decide)⟩

/-! ## Claim C8 (amended): totality and degradation -/

/-- **C8** (amended): tokenization is total and never fails: on every input,
including malformed or unbalanced markup, it returns a token stream whose
spans are ascending, non-overlapping and within `[0, len text)`; a stray
closing brace degrades to a `bracket` token, an unterminated `\begin{x`
degrades to environment/bracket/text tokens, and an unmatched `{` in plain
text degrades to text/bracket/text — the scan never halts.  (However a
character matching no alternative, such as a lone `%`, is silently skipped
rather than degraded to an opaque token: see the counterexample.) -/
theorem c8_total_never_fails :
    (∀ text : List Char,
      spansChainB 0 text.length (toksSpans (tokenize_latex text)) = true) ∧
      (tokenize_latex (("\x7d").toList)).map Tok.ty = ["bracket"] ∧
      (tokenize_latex (("\\begin\x7bx").toList)).map Tok.ty =
        ["environment", "bracket", "text"] ∧
      (tokenize_latex (("a\x7bb").toList)).map Tok.ty =
        ["text", "bracket", "text"] := by
  refine ⟨fun text => tokenize_latex_chain text, by decide, by decide, by decide⟩

/-! ## Line tracking -/

theorem contains_eq_false_iff {l : List Char} {a : Char} :
    l.contains a = false ↔ a ∉ l := by
  rw [Bool.eq_false_iff, ne_eq, contains_iff_mem]

theorem contains_false_sublist {l' l : List Char} {a : Char} (hs : List.Sublist l' l)
    (h : l.contains a = false) : l'.contains a = false := by
  rw [contains_eq_false_iff] at h ⊢
  exact fun hm => h (hs.subset hm)

theorem mkTok_line (ty : String) (v : List Char) (l s e : Nat) :
    (mkTok ty v l s e).line = l := rfl

theorem mkTok_posStart (ty : String) (v : List Char) (l s e : Nat) :
    (mkTok ty v l s e).posStart = s := rfl

theorem emitOne_noNl (fuel : Nat)
    (ih : ∀ (content : List Char) (line start : Nat), content.contains '\n' = false →
      ∀ t ∈ tokenize_contentF fuel content line start, t.line = line)
    (s : Nat) (m : List Char) (line : Nat) (hnl : m.contains '\n' = false) :
    ∀ t ∈ emitOneWith (fun inner l st => tokenize_contentF fuel inner l st) s m line,
      t.line = line := by
  intro t ht
  rw [emitOneWith] at ht
  by_cases hty1 : get_token_type m = "environment"
  · rw [if_pos hty1, List.mem_singleton] at ht
    rw [ht, mkTok_line]
  · rw [if_neg hty1] at ht
    by_cases hty2 : get_token_type m = "structure" ∨ get_token_type m = "command"
    · rw [if_pos hty2] at ht
      by_cases hct : m.contains '\x7b' = true
      · rw [if_pos hct] at ht
        have hsub : List.Sublist ((m.drop (m.findIdx (fun d => d = '\x7b') + 1)).dropLast) m :=
          (List.dropLast_sublist _).trans (List.drop_sublist _ _)
        rcases List.mem_append.1 ht with h | h
        · rcases List.mem_append.1 h with h | h
          · rcases List.mem_cons.1 h with h | h
            · rw [h, mkTok_line]
            · rw [List.mem_singleton] at h
              rw [h, mkTok_line]
          · exact ih _ line _ (contains_false_sublist hsub hnl) t h
        · rw [List.mem_singleton] at h
          rw [h, mkTok_line]
      · rw [if_neg hct, List.mem_singleton] at ht
        rw [ht, mkTok_line]
    · rw [if_neg hty2, List.mem_singleton] at ht
      rw [ht, mkTok_line]

theorem emitAll_noNl (fuel : Nat)
    (ih : ∀ (content : List Char) (line start : Nat), content.contains '\n' = false →
      ∀ t ∈ tokenize_contentF fuel content line start, t.line = line) :
    ∀ (chunks : List (Nat × List Char)) (line : Nat),
      (∀ sm ∈ chunks, (sm.2 : List Char).contains '\n' = false) →
      ∀ t ∈ emitAllWith (fun inner l st => tokenize_contentF fuel inner l st) chunks line,
        t.line = line := by
  intro chunks
  induction chunks with
  | nil =>
    intro line _ t ht
    rw [emitAllWith] at ht
    exact absurd ht (List.not_mem_nil t)
  | cons sm rest ihc =>
    intro line hall t ht
    rcases sm with ⟨s, m⟩
    rw [emitAllWith] at ht
    have hm := hall (s, m) (List.mem_cons_self _ _)
    rcases List.mem_append.1 ht with h | h
    · exact emitOne_noNl fuel ih s m line hm t h
    · have hc : m.count '\n' = 0 := List.count_eq_zero.2 (contains_eq_false_iff.1 hm)
      have hline' : (if get_token_type m = "newline" then line + m.count '\n' else line)
          = line := by
        by_cases hty : get_token_type m = "newline"
        · rw [if_pos hty, hc]
          omega
        · rw [if_neg hty]
      rw [hline'] at h
      exact ihc line (fun sm2 h2 => hall sm2 (List.mem_cons_of_mem _ h2)) t h

theorem tokenize_contentF_noNl : ∀ (fuel : Nat) (content : List Char) (line start : Nat),
    content.contains '\n' = false →
    ∀ t ∈ tokenize_contentF fuel content line start, t.line = line := by
  intro fuel
  induction fuel with
  | zero =>
    intro content line start _ t ht
    simp [tokenize_contentF] at ht
  | succ fuel ih =>
    intro content line start hnl t ht
    rw [tokenize_contentF] at ht
    refine emitAll_noNl fuel ih (scanChunks content start) line ?_ t ht
    intro sm hsm
    rw [contains_eq_false_iff] at hnl ⊢
    exact fun hmem => hnl (scanAuxF_chars_mem content.length content start sm hsm '\n' hmem)

theorem count_take_prefix {pre m rf : List Char} {k : Nat}
    (h1 : pre.length ≤ k) (h2 : k ≤ pre.length + m.length)
    (hmt : (m.take (k - pre.length)).count '\n' = 0) :
    ((pre ++ (m ++ rf)).take k).count '\n' = pre.count '\n' := by
  have h0 : k - pre.length - m.length = 0 := by omega
  rw [List.take_append_eq_append_take, List.take_of_length_le h1,
    List.take_append_eq_append_take, h0, List.take_zero,
    List.count_append, List.count_append, hmt, List.count_nil]
  omega

theorem emitAll_lines (fuel : Nat) :
    ∀ (chunks : List (Nat × List Char)) (lo hi line : Nat) (pre : List Char),
      chunksOkB lo hi chunks = true →
      chunksTileB lo hi chunks = true →
      (chunks.all fun sm =>
        (! sm.2.contains '\n' || decide (get_token_type sm.2 = "newline"))) = true →
      hi ≤ lo + fuel →
      lo = pre.length →
      line = 1 + pre.count '\n' →
      ∀ t ∈ emitAllWith (fun inner l st => tokenize_contentF fuel inner l st) chunks line,
        t.line = 1 + ((pre ++ (chunks.map fun sm => sm.2).flatten).take t.posStart).count '\n' := by
  intro chunks
  induction chunks with
  | nil =>
    intro lo hi line pre _ _ _ _ _ _ t ht
    rw [emitAllWith] at ht
    exact absurd ht (List.not_mem_nil t)
  | cons sm rest ihc =>
    intro lo hi line pre hok htile hall hB hlo hline t ht
    rcases sm with ⟨s, m⟩
    rw [chunksOkB] at hok
    simp only [Bool.and_eq_true, decide_eq_true_eq] at hok
    obtain ⟨⟨⟨⟨hlos, hm⟩, hshi⟩, hwf⟩, hokr⟩ := hok
    rw [chunksTileB] at htile
    simp only [Bool.and_eq_true, decide_eq_true_eq] at htile
    obtain ⟨⟨hslo, hm2⟩, htiler⟩ := htile
    rw [List.all_cons, Bool.and_eq_true] at hall
    obtain ⟨hc1, hcr⟩ := hall
    subst hslo
    simp only [Bool.or_eq_true, Bool.not_eq_true', decide_eq_true_eq] at hc1
    simp only [List.map_cons, List.flatten_cons]
    rw [emitAllWith] at ht
    rcases List.mem_append.1 ht with h | h
    · have hchain := emitOne_chain fuel
        (fun c l st hlt => tokenize_contentF_chain fuel c l st hlt) s m line hm hwf
        (by omega)
      have hbnd := spansChainB_mem hchain (mem_toksSpans h)
      rcases hc1 with hnl | hty
      · have hl := emitOne_noNl fuel (fun c l st => tokenize_contentF_noNl fuel c l st)
          s m line hnl t h
        have hmt : (m.take (t.posStart - pre.length)).count '\n' = 0 := by
          apply List.count_eq_zero.2
          intro hmem
          exact contains_eq_false_iff.1 hnl (List.take_subset _ _ hmem)
        rw [hl, hline, count_take_prefix (by omega) (by omega) hmt]
      · rw [emitOneWith,
          if_neg (show ¬ get_token_type m = "environment" from by rw [hty]; decide),
          if_neg (show ¬ (get_token_type m = "structure" ∨ get_token_type m = "command")
            from by rw [hty]; decide),
          List.mem_singleton] at h
        subst h
        rw [mkTok_line, mkTok_posStart]
        have hmt : (m.take (s - pre.length)).count '\n' = 0 := by
          have h0 : s - pre.length = 0 := by omega
          rw [h0, List.take_zero, List.count_nil]
        rw [hline, count_take_prefix (by omega) (by omega) hmt]
    · have hc0 : m.contains '\n' = false → m.count '\n' = 0 := fun hnl =>
        List.count_eq_zero.2 (contains_eq_false_iff.1 hnl)
      have hline' : (if get_token_type m = "newline" then line + m.count '\n' else line)
          = 1 + (pre ++ m).count '\n' := by
        rw [List.count_append]
        by_cases htyn : get_token_type m = "newline"
        · rw [if_pos htyn]
          omega
        · rw [if_neg htyn]
          rcases hc1 with hnl | hty
          · have := hc0 hnl
            omega
          · exact absurd hty htyn
      rw [hline'] at h
      have := ihc (s + m.length) hi (1 + (pre ++ m).count '\n') (pre ++ m)
        hokr htiler hcr (by omega) (by rw [List.length_append]; omega) rfl t h
      rwa [List.append_assoc] at this

theorem tokenize_content_lines (text : List Char)
    (hns : noSkips text = true) (hnl : goodNlB text = true) :
    ∀ t ∈ tokenize_content text 1 0,
      t.line = 1 + ((text.take t.posStart).count '\n') := by
  intro t ht
  rw [tokenize_content, tokenize_contentF] at ht
  rw [goodNlB] at hnl
  have hjoin : ((scanChunks text 0).map fun sm => sm.2).flatten = text :=
    scanAuxF_join text.length text 0 (Nat.le_refl _) hns
  have := emitAll_lines text.length (scanChunks text 0) 0 (0 + text.length) 1 []
    (scanAuxF_chunksOk text.length text 0 (Nat.le_refl _))
    (scanAuxF_tile text.length text 0 (Nat.le_refl _) hns)
    hnl (by omega) rfl rfl t ht
  rwa [List.nil_append, hjoin] at this

/-! ## Claim C9 (amended) -/

/-- **C9** (amended): provided the scan skips no character (`noSkips`) and
every newline of the input lies in a `newline`-typed top-level match
(`goodNlB`), each token's `line` field equals the 1-based source line of the
token's start: 1 plus the number of newline characters before its start
offset.  (Without these provisos the field can be stale: see the
`\section{a\nb}c` counterexample, where tokens on line 2 carry `line = 1`.) -/
theorem c9_line_of_newlines_before (text : List Char)
    (hns : noSkips text = true) (hnl : goodNlB text = true) :
    ∀ t ∈ tokenize_latex text,
      t.line = 1 + ((text.take t.posStart).count '\n') := by
  intro t ht
  rw [tokenize_latex] at ht
  have hmap := stampBlocks_map (fun u => (u.line, u.posStart)) (fun u b => rfl)
    (tokenize_content text 1 0) [0] 0
  have hmem : ((t.line, t.posStart) : Nat × Nat) ∈
      (tokenize_content text 1 0).map (fun u => (u.line, u.posStart)) := by
    rw [← hmap]
    exact List.mem_map_of_mem _ ht
  obtain ⟨t2, ht2, heq⟩ := List.mem_map.1 hmem
  simp only [Prod.mk.injEq] at heq
  obtain ⟨h1, h2⟩ := heq
  rw [← h1, ← h2]
  exact tokenize_content_lines text hns hnl t2 ht2

theorem c9_line_of_newlines_before_witness :
    noSkips (("a\nb").toList) = true ∧ goodNlB (("a\nb").toList) = true ∧
      ((tokenize_latex (("a\nb").toList)).all fun t =>
        decide (t.line = 1 + (((("a\nb").toList).take t.posStart).count '\n'))) = true :=
  ⟨by decide, by decide,
    List.all_eq_true.2 fun t ht =>
      decide_eq_true (c9_line_of_newlines_before _ (by decide) (by decide) t ht)⟩

end LaTexTokenizer
